import Mathlib

/-!
Verification development for the loose-it repository (pre-built Polymer
bindings and property effects).  The definitions below are a shallow
embedding of:

* `src/polymerjs/utils/binding-parser.js` — the delimiter-scanner state
  machine (`parse` and its helpers), and
* `src/serialization.ts` / `src/properties.ts` — the effect-table
  compaction pass (`stripUnnecessaryEffectData`), the cache-name
  remapper, the observer-arg-cache rekeying (`patchUpObserverArgCache`)
  and the key-unquoting fix-up of `stripSerializedMetadata`.

JavaScript machine-level details are modelled explicitly: `String`
values are lists of characters, `substring` clamps and swaps its
bounds, absent object fields are `Option.none`, JS truthiness of the
relevant field types is spelled out per field, and `Map` / plain-object
tables are insertion-ordered association lists.
-/

namespace LooseIt

/-- JS whitespace for `trim` / leading-`\s` stripping (ASCII subset;
the inputs of interest contain no exotic Unicode spaces). -/
def isJsWhitespace (c : Char) : Bool :=
  c = ' ' || c = '\t' || c = '\n' || c = '\r' || c = '\x0b' || c = '\x0c'

def trimLeftChars (l : List Char) : List Char :=
  l.dropWhile isJsWhitespace

/-- JS `String.prototype.trim`. -/
def jsTrim (s : String) : String :=
  ⟨(trimLeftChars (trimLeftChars s.data.reverse).reverse)⟩

/-- JS `String.prototype.substring`: clamps both indices to the string
length and swaps them when `s > e`. -/
def jsSubstring (l : List Char) (s e : Nat) : String :=
  let len := l.length
  let a := min (min s len) (min e len)
  let b := max (min s len) (min e len)
  ⟨(l.drop a).take (b - a)⟩

/-! ## Binding parser (`src/polymerjs/utils/binding-parser.js`) -/

/-- Value carried by a literal argument.  Numeric literals keep the raw
source text of the number (`Number(value)` in JS); no claim inspects
the numeric value itself. -/
inductive ArgVal where
  | str (s : String)
  | num (raw : String)
  | bool (b : Bool)
deriving DecidableEq, Repr

/-- A parsed method argument.  Absent JS fields are modelled by the
defaults (`value` absent, boolean fields absent ≈ `false`). -/
structure PArg where
  name : String
  value : Option ArgVal := none
  literal : Bool := false
  structured : Bool := false
  wildcard : Bool := false
deriving DecidableEq, Repr

/-- `bindingData.signature` as built by the `'('` branch of `parse`. -/
structure Sig where
  methodName : String
  args : List PArg := []
  static : Bool := true
  dynamicFn : Bool := false
deriving DecidableEq, Repr

/-- The mutable `bindingData` record of the scanner.  `startChar`
defaults to `0`, matching every JS read of an `undefined` start
(`startChar || 0`). -/
structure BindingData where
  mode : Char := ' '
  negate : Bool := false
  customEvent : Bool := false
  dependencies : List String := []
  startChar : Nat := 0
  startCharAfterColon : Nat := 0
  source : Option String := none
  event : Option String := none
  signature : Option Sig := none
deriving DecidableEq, Repr

/-- One element of the `parts` output array. -/
inductive Part where
  | literal (text : String)
  | binding (b : BindingData)
deriving DecidableEq, Repr

/-- The caller-supplied `templateInfo`: `dynamicFns` is a JS object used
as a set of method names (absent ≈ no dynamic functions). -/
structure TemplateInfo where
  dynamicFns : Option (List String) := none
deriving DecidableEq, Repr

/-- `dynamicFns && dynamicFns[methodName]` truthiness. -/
def inDynamicFns (t : TemplateInfo) (name : String) : Bool :=
  match t.dynamicFns with
  | some l => l.contains name
  | none => false

/-- The `STATE` enum of the scanner. -/
inductive St where
  | INITIAL
  | FIRSTOPENINGBINDING
  | FIRSTCHARACTERBINDING
  | BINDING
  | FIRSTCOLON
  | COLONNOTIFYEVENT
  | COLONNOTIFYEVENTFIRSTCLOSINGBINDING
  | FIRSTCLOSINGBINDING
  | STRING
  | METHOD
  | STRINGARG
  | NUMBERARG
  | VARIABLEARG
  | METHODCLOSED
  | METHODCLOSEDBINDING
deriving DecidableEq, Repr

/-- Full machine state of one `parse` run (`warnings` records the
`console.warn` calls). -/
structure PState where
  parts : List Part := []
  b : BindingData := {}
  escaped : Bool := false
  quote : Char := ' '
  state : St := .INITIAL
  warnings : List String := []
deriving DecidableEq, Repr

/-- The `BINDINGS` lookup table: closing bracket for an opening one. -/
def closeFor (c : Char) : Option Char :=
  if c = '{' then some '}' else if c = '[' then some ']' else none

def closeStr (c : Char) : String :=
  match closeFor c with
  | some cc => String.singleton cc
  | none => "undefined"

/-- `pushLiteral(text, i, parts, startChar)`: push
`text.substring(startChar || 0, i)` when non-empty. -/
def pushLiteral (text : List Char) (i : Nat) (parts : List Part) (startChar : Nat) :
    List Part :=
  let lit := jsSubstring text startChar i
  if lit = "" then parts else parts ++ [Part.literal lit]

/-- Modelled from the spec: `isPath` is imported from `./path.js`,
which is not under `src/`; spec §3 says `structured` "is true when the
name contains a path separator". -/
def isPath (name : String) : Bool := name.contains '.'

/-- `storeMethod`: push the method name as a dependency and set
`dynamicFn` when the name is in `dynamicFns` or the signature is
static. -/
def storeMethod (b : BindingData) (tinfo : TemplateInfo) : BindingData :=
  match b.signature with
  | none => b
  | some sig =>
    if inDynamicFns tinfo sig.methodName || sig.static then
      { b with dependencies := b.dependencies ++ [sig.methodName],
               signature := some { sig with dynamicFn := true } }
    else b

/-- `storeVariableBinding`: record the source property, push it as a
dependency, advance `startChar` and emit the binding part. -/
def storeVariableBinding (parts : List Part) (b : BindingData) (prop : String)
    (i : Nat) : List Part × BindingData :=
  let b := { b with source := some prop,
                    dependencies := b.dependencies ++ [prop],
                    startChar := i + 1 }
  (parts ++ [Part.binding b], b)

/-- JS `name.slice(0, -2)`. -/
def dropLastTwo (s : String) : String :=
  ⟨s.data.take (s.data.length - 2)⟩

/-- JS `name.slice(-2)`. -/
def sliceLastTwo (s : String) : String :=
  ⟨s.data.drop (s.data.length - 2)⟩

/-- `storeMethodVariable`: classify the pending argument text as a
boolean literal or a property reference. -/
def storeMethodVariable (b : BindingData) (text : List Char) (i : Nat) :
    BindingData :=
  let name := jsTrim (jsSubstring text b.startChar i)
  if name = "" then b
  else
    match b.signature with
    | none => b
    | some sig =>
      if name = "true" || name = "false" then
        { b with signature := some { sig with
            args := sig.args ++
              [{ name := name, value := some (ArgVal.bool (name = "true")),
                 literal := true }] } }
      else
        let structured := isPath name
        let wildcard := structured && sliceLastTwo name = ".*"
        let argName := if wildcard then dropLastTwo name else name
        { b with
          signature := some { sig with
            args := sig.args ++
              [{ name := argName, structured := structured, wildcard := wildcard }],
            static := false },
          dependencies := b.dependencies ++ [name] }

/-- `storeMethodNumber`: push the pending text as a numeric literal. -/
def storeMethodNumber (b : BindingData) (text : List Char) (i : Nat) :
    BindingData :=
  let value := jsTrim (jsSubstring text b.startChar i)
  match b.signature with
  | none => b
  | some sig =>
    { b with signature := some { sig with
        args := sig.args ++
          [{ name := value, value := some (ArgVal.num value), literal := true }] } }

/-- `/&comma;/g → ','` replacement of the string-arg fix-up. -/
def replaceCommaEntity : List Char → List Char
  | '&' :: 'c' :: 'o' :: 'm' :: 'm' :: 'a' :: ';' :: rest =>
      ',' :: replaceCommaEntity rest
  | c :: rest => c :: replaceCommaEntity rest
  | [] => []

/-- `/\\(.)/g → '$1'` replacement: a backslash followed by any
non-newline character is collapsed to that character. -/
def unescapeChars : List Char → List Char
  | '\\' :: c :: rest =>
      if c = '\n' || c = '\r' then '\\' :: unescapeChars (c :: rest)
      else c :: unescapeChars rest
  | c :: rest => c :: unescapeChars rest
  | [] => []

/-- Value of a closed string argument (STRINGARG branch): take the raw
slice, strip leading whitespace, drop the opening quote, substitute
`&comma;` and repair escape sequences. -/
def stringArgValue (text : List Char) (startChar i : Nat) : String :=
  let raw := (jsSubstring text startChar i).data
  let raw := trimLeftChars raw
  let raw := raw.drop 1
  let raw := replaceCommaEntity raw
  let raw := unescapeChars raw
  ⟨raw⟩

def expectedTwoClosing (mode : Char) (text : List Char) : String :=
  "Expected two closing \"" ++ closeStr mode ++ "\" for binding \"" ++ ⟨text⟩ ++ "\""

def expectedOneClosing (mode : Char) (text : List Char) : String :=
  "Expected one closing \"" ++ closeStr mode ++ "\" for binding \"" ++ ⟨text⟩ ++ "\""

/-- One transition of the scanner: the body of the `for` loop of
`parse`, at index `i` on character `c`. -/
def step (text : List Char) (tinfo : TemplateInfo) (i : Nat) (st : PState)
    (c : Char) : PState :=
  match st.state with
  | .INITIAL =>
      if c = '{' || c = '[' then
        { st with b := { mode := c, dependencies := [], startChar := st.b.startChar },
                  state := .FIRSTOPENINGBINDING }
      else st
  | .FIRSTOPENINGBINDING =>
      if c = st.b.mode then
        { st with parts := pushLiteral text (i - 1) st.parts st.b.startChar,
                  b := { st.b with startChar := i + 1 },
                  state := .FIRSTCHARACTERBINDING }
      else { st with b := {}, state := .INITIAL }
  | .FIRSTCHARACTERBINDING =>
      if c ≠ ' ' && c ≠ '\t' && c ≠ '\n' then
        if c = '!' then
          { st with b := { st.b with negate := true, startChar := i + 1 },
                    state := .BINDING }
        else { st with state := .BINDING }
      else st
  | .BINDING =>
      if closeFor st.b.mode = some c then { st with state := .FIRSTCLOSINGBINDING }
      else if c = '\'' || c = '"' then { st with quote := c, state := .STRING }
      else if c = '(' then
        { st with b := { st.b with
                    signature := some
                      { methodName := jsTrim (jsSubstring text st.b.startChar i) },
                    startChar := i + 1 },
                  state := .METHOD }
      else if c = ':' then { st with state := .FIRSTCOLON }
      else st
  | .FIRSTCOLON =>
      if c = ':' then
        { st with b := { st.b with customEvent := true, startCharAfterColon := i + 1 },
                  state := .COLONNOTIFYEVENT }
      else { st with state := .BINDING }
  | .COLONNOTIFYEVENT =>
      if closeFor st.b.mode = some c then
        { st with state := .COLONNOTIFYEVENTFIRSTCLOSINGBINDING }
      else st
  | .COLONNOTIFYEVENTFIRSTCLOSINGBINDING =>
      if closeFor st.b.mode = some c then
        let b := { st.b with
          event := some (jsTrim (jsSubstring text st.b.startCharAfterColon (i - 1))) }
        let prop := jsTrim (jsSubstring text b.startChar (b.startCharAfterColon - 2))
        let pb := storeVariableBinding st.parts b prop i
        { st with parts := pb.1, b := pb.2, state := .INITIAL }
      else { st with state := .BINDING }
  | .FIRSTCLOSINGBINDING =>
      if closeFor st.b.mode = some c then
        let prop := jsTrim (jsSubstring text st.b.startChar (i - 1))
        let pb := storeVariableBinding st.parts st.b prop i
        { st with parts := pb.1, b := pb.2, state := .INITIAL }
      else { st with state := .BINDING }
  | .STRING =>
      if c = '\\' then { st with escaped := true }
      else if c = st.quote && !st.escaped then { st with state := .BINDING }
      else { st with escaped := false }
  | .METHOD =>
      if c = ')' then
        let b := storeMethodVariable st.b text i
        let b := storeMethod b tinfo
        let b := { b with startChar := i + 1 }
        let b := storeMethod b tinfo
        { st with b := b, state := .METHODCLOSED }
      else if c = ',' then
        let b := storeMethodVariable st.b text i
        { st with b := { b with startChar := i + 1 } }
      else if c = '\'' || c = '"' then { st with quote := c, state := .STRINGARG }
      else if ('0' ≤ c && c ≤ '9') || c = '-' then { st with state := .NUMBERARG }
      else if c ≠ ' ' && c ≠ '\n' then { st with state := .VARIABLEARG }
      else st
  | .STRINGARG =>
      if c = '\\' then { st with escaped := true }
      else if c = st.quote && !st.escaped then
        let value := stringArgValue text st.b.startChar i
        let b : BindingData := match st.b.signature with
          | none => st.b
          | some sig =>
            { st.b with signature := some { sig with
                args := sig.args ++
                  [{ name := value, value := some (ArgVal.str value),
                     literal := true }] } }
        { st with b := { b with startChar := i + 1 }, state := .METHOD }
      else { st with escaped := false }
  | .NUMBERARG =>
      if c = ',' then
        let b := storeMethodNumber st.b text i
        { st with b := { b with startChar := i + 1 }, state := .METHOD }
      else if c = ')' then
        let b := storeMethodNumber st.b text i
        let b := storeMethod b tinfo
        { st with b := b, state := .METHODCLOSED }
      else if c < '0' || c > '9' then { st with state := .VARIABLEARG }
      else st
  | .VARIABLEARG =>
      if c = ',' then
        let b := storeMethodVariable st.b text i
        { st with b := { b with startChar := i + 1 }, state := .METHOD }
      else if c = ')' then
        let b := storeMethodVariable st.b text i
        let b := storeMethod b tinfo
        { st with b := b, state := .METHODCLOSED }
      else st
  | .METHODCLOSED =>
      if closeFor st.b.mode = some c then { st with state := .METHODCLOSEDBINDING }
      else if c ≠ ' ' && c ≠ '\t' && c ≠ '\n' then
        { st with warnings := st.warnings ++ [expectedTwoClosing st.b.mode text] }
      else st
  | .METHODCLOSEDBINDING =>
      if closeFor st.b.mode = some c then
        let b := { st.b with startChar := i + 1 }
        { st with b := b, parts := st.parts ++ [Part.binding b], state := .INITIAL }
      else if c ≠ ' ' && c ≠ '\t' && c ≠ '\n' then
        { st with warnings := st.warnings ++ [expectedOneClosing st.b.mode text] }
      else st

/-- The character loop of `parse`. -/
def runAux (text : List Char) (tinfo : TemplateInfo) : Nat → List Char → PState → PState
  | _, [], st => st
  | i, c :: cs, st => runAux text tinfo (i + 1) cs (step text tinfo i st c)

/-- `parts[parts.length - 1].startChar` — literal parts carry no
`startChar`, and every JS read goes through `startChar || 0`. -/
def partStartChar : Part → Nat
  | .literal _ => 0
  | .binding b => b.startChar

/-- `parse`, also exposing the `console.warn` diagnostics. -/
def parseWithWarnings (text : String) (tinfo : TemplateInfo) :
    List Part × List String :=
  let cs := text.data
  let st := runAux cs tinfo 0 cs ({} : PState)
  let parts :=
    match st.parts.getLast? with
    | some p => pushLiteral cs cs.length st.parts (partStartChar p)
    | none => st.parts
  (parts, st.warnings)

/-- `parse(text, templateInfo)` of `binding-parser.js`. -/
def parse (text : String) (tinfo : TemplateInfo) : List Part :=
  (parseWithWarnings text tinfo).1

/-! ## Effect compaction (`src/serialization.ts`, `src/properties.ts`)

Effect records are plain JS data; absent fields are `none`.  The
truthiness tests of the source are spelled out per field: an absent or
`false` boolean field is falsy, an absent or empty string field is
falsy. -/

/-- Truthiness of an optional boolean JS field. -/
def jsTruthyB : Option Bool → Bool
  | some true => true
  | _ => false

/-- Truthiness of an optional string JS field (`""` is falsy). -/
def jsTruthyS : Option String → Bool
  | some s => s ≠ ""
  | none => false

/-- `effect.trigger` payload (only the fields the compactor touches,
plus the trigger property name). -/
structure STrigger where
  name : String := ""
  rootProperty : Option String := none
  structured : Option Bool := none
  wildcard : Option Bool := none
deriving DecidableEq, Repr

/-- One entry of `effect.info.args` / of the observer-arg cache. -/
structure SArg where
  name : String := ""
  structured : Option Bool := none
  wildcard : Option Bool := none
deriving DecidableEq, Repr

/-- `effect.info` payload.  `methodInfo` is an arbitrary JS value whose
only use here is a truthiness test; a boolean carrier captures that. -/
structure SInfo where
  methodName : Option String := none
  args : Option (List SArg) := none
  methodInfo : Option Bool := none
  dynamicFn : Option Bool := none
  cacheName : Option String := none
  part : Option String := none
deriving DecidableEq, Repr

/-- One effect record.  `fn` (rewritten by `serializeRunTimeClosures`
via JS function identity) is not modelled; no claim mentions it. -/
structure SEffect where
  trigger : Option STrigger := none
  info : Option SInfo := none
deriving DecidableEq, Repr

/-- `prototype.context`: insertion-ordered `Map` plus the counter. -/
structure Ctx where
  map : List (String × String) := []
  index : Nat := 0
deriving DecidableEq, Repr

/-- `Map.prototype.get`. -/
def mget : List (String × String) → String → Option String
  | [], _ => none
  | (k, v) :: rest, q => if q = k then some v else mget rest q

/-- `Map.prototype.set`: update in place, or append a new key. -/
def mset : List (String × String) → String → String → List (String × String)
  | [], k, v => [(k, v)]
  | (k0, v0) :: rest, k, v =>
      if k0 = k then (k0, v) :: rest else (k0, v0) :: mset rest k v

/-- Cache-name resolution, `serialization.ts` lines 94-101: a fresh key
is assigned `(context.index++).toString()`; a known key returns its
recorded token. -/
def resolveCacheName (ctx : Ctx) (key : String) : String × Ctx :=
  match mget ctx.map key with
  | some tok => (tok, ctx)
  | none =>
      (toString ctx.index,
       { map := mset ctx.map key (toString ctx.index), index := ctx.index + 1 })

/-- Strip an arg: delete falsy `structured` / `wildcard`. -/
def stripArg (a : SArg) : SArg :=
  let a := if jsTruthyB a.structured then a else { a with structured := none }
  if jsTruthyB a.wildcard then a else { a with wildcard := none }

/-- Strip a trigger (after the `JSON.parse(JSON.stringify(..))` copy,
which is the identity on this pure data): drop `rootProperty` and the
falsy `structured` / `wildcard` flags. -/
def stripTrigger (t : STrigger) : STrigger :=
  let t := { t with rootProperty := none }
  let t := if jsTruthyB t.structured then t else { t with structured := none }
  if jsTruthyB t.wildcard then t else { t with wildcard := none }

/-- First statements of the `effect.info` block: strip the args and
drop falsy `methodInfo` / `dynamicFn`. -/
def stripInfoPre (info : SInfo) : SInfo :=
  let info := match info.args with
    | some args => { info with args := some (args.map stripArg) }
    | none => info
  let info := if jsTruthyB info.methodInfo then info else { info with methodInfo := none }
  if jsTruthyB info.dynamicFn then info else { info with dynamicFn := none }

/-- The `if (effect.info.cacheName)` statement: resolve a truthy cache
name through the context. -/
def resolveInfoCache (info : SInfo) (ctx : Ctx) : SInfo × Ctx :=
  match info.cacheName with
  | some cn =>
      if cn ≠ "" then
        let rc := resolveCacheName ctx cn
        ({ info with cacheName := some rc.1 }, rc.2)
      else (info, ctx)
  | none => (info, ctx)

/-- The final `if (effect.info.part)` statement: delete a truthy `part`. -/
def stripInfoPost (info : SInfo) : SInfo :=
  if jsTruthyS info.part then { info with part := none } else info

/-- The `effect.info` block of `stripUnnecessaryEffectData`, in the
statement order of the source. -/
def stripInfoData (info : SInfo) (ctx : Ctx) : SInfo × Ctx :=
  let res := resolveInfoCache (stripInfoPre info) ctx
  (stripInfoPost res.1, res.2)

/-- Process one effect record. -/
def stripEffect (e : SEffect) (ctx : Ctx) : SEffect × Ctx :=
  let e := match e.trigger with
    | some t => { e with trigger := some (stripTrigger t) }
    | none => e
  match e.info with
  | some info =>
      let ic := stripInfoData info ctx
      ({ e with info := some ic.1 }, ic.2)
  | none => (e, ctx)

/-- Process one `propertyEffects` row. -/
def stripRow : List SEffect → Ctx → List SEffect × Ctx
  | [], ctx => ([], ctx)
  | e :: rest, ctx =>
      let ec := stripEffect e ctx
      let rc := stripRow rest ec.2
      (ec.1 :: rc.1, rc.2)

def stripRows : List (List SEffect) → Ctx → List (List SEffect) × Ctx
  | [], ctx => ([], ctx)
  | row :: rest, ctx =>
      let rc := stripRow row ctx
      let rrc := stripRows rest rc.2
      (rc.1 :: rrc.1, rrc.2)

/-- `stripUnnecessaryEffectData(effects, prototype)`: the context is
created on first use (`prototype.context || (prototype.context = ...)`)
and threaded through every record; the updated effects and context are
returned. -/
def stripUnnecessaryEffectData (effects : List (List SEffect))
    (ctxOpt : Option Ctx) : List (List SEffect) × Ctx :=
  let ctx := match ctxOpt with
    | some c => c
    | none => { map := [], index := 0 }
  stripRows effects ctx

/-! ### Observer-arg cache rekeying -/

/-- The `__observerArgCache` table: a plain JS object, modelled as an
insertion-ordered association list with pairwise-distinct keys. -/
def ArgTable := List (String × List SArg)
deriving DecidableEq, Repr

def olookup : List (String × List SArg) → String → Option (List SArg)
  | [], _ => none
  | (k, v) :: rest, q => if q = k then some v else olookup rest q

/-- `effects[key] = v` on a JS object: overwrite in place or append. -/
def oset : List (String × List SArg) → String → List SArg →
    List (String × List SArg)
  | [], k, v => [(k, v)]
  | (k0, v0) :: rest, k, v =>
      if k0 = k then (k0, v) :: rest else (k0, v0) :: oset rest k v

/-- `delete effects[key]`. -/
def odel : List (String × List SArg) → String → List (String × List SArg)
  | [], _ => []
  | (k0, v0) :: rest, k =>
      if k0 = k then odel rest k else (k0, v0) :: odel rest k

/-- The loop body of `patchUpObserverArgCache` over the
`Object.entries` snapshot: `effects[map.get(k)] = v` (a missing key
yields the property name `"undefined"`), then `delete effects[k]`, then
the falsy `structured` / `wildcard` fields of the stored args are
stripped in place. -/
def patchUpGo (m : List (String × String)) :
    List (String × List SArg) → List (String × List SArg) →
    List (String × List SArg)
  | [], acc => acc
  | (k, v) :: rest, acc =>
      let nk := match mget m k with
        | some s => s
        | none => "undefined"
      patchUpGo m rest (odel (oset acc nk (v.map stripArg)) k)

/-- `patchUpObserverArgCache(effects, map)` of `serialization.ts`. -/
def patchUpObserverArgCache (t : List (String × List SArg))
    (m : List (String × String)) : List (String × List SArg) :=
  patchUpGo m t t

/-! ### The per-prototype pipeline of `serializeEffectsInBrowser`
(`src/properties.ts` lines 46-59).  The closure serialization of lines
38-44 only rewrites `effect.fn` references and is not modelled. -/

structure Proto where
  computeEffects : Option (List (List SEffect)) := none
  observeEffects : Option (List (List SEffect)) := none
  observerArgCache : Option (List (String × List SArg)) := none
  context : Option Ctx := none
deriving DecidableEq, Repr

/-- `if (prototype.__computeEffects) stripUnnecessaryEffectData(...)`. -/
def computeStripStep (p : Proto) : Proto :=
  match p.computeEffects with
  | some es =>
      let r := stripUnnecessaryEffectData es p.context
      { p with computeEffects := some r.1, context := some r.2 }
  | none => p

/-- `if (prototype.__observeEffects) stripUnnecessaryEffectData(...)`. -/
def observeStripStep (p : Proto) : Proto :=
  match p.observeEffects with
  | some es =>
      let r := stripUnnecessaryEffectData es p.context
      { p with observeEffects := some r.1, context := some r.2 }
  | none => p

/-- The two `stripUnnecessaryEffectData` calls of
`serializeEffectsInBrowser`, in source order. -/
def effectStripPhase (p : Proto) : Proto :=
  observeStripStep (computeStripStep p)

/-- The alias map `prototype.context.map` read by
`patchUpObserverArgCache` after both strip passes (a missing context
would be a JS `TypeError`; it is read as the empty map here and never
reached by the claims). -/
def mapAtPatch (p : Proto) : List (String × String) :=
  match (effectStripPhase p).context with
  | some c => c.map
  | none => []

/-- The full strip-then-patch pipeline of `serializeEffectsInBrowser`. -/
def serializeEffectsPipeline (p : Proto) : Proto :=
  let q := effectStripPhase p
  match q.observerArgCache with
  | some t =>
      { q with observerArgCache := some (patchUpObserverArgCache t (mapAtPatch p)) }
  | none => q

/-! ## `stripSerializedMetadata` (`serialization.ts` line 138)

`JSON.stringify(metadata).replace(/"(\w+)":/g, '$1:')`.  The global
regex replacement is modelled as a character scanner: a match is a
double quote, one or more `\w` characters (`[A-Za-z0-9_]`), then `":`;
on a failed attempt the scanner emits the quote and resumes one
character later, exactly as the regex engine does. -/

/-- JS `\w`: `[A-Za-z0-9_]`. -/
def isWordChar (c : Char) : Bool :=
  ('a' ≤ c && c ≤ 'z') || ('A' ≤ c && c ≤ 'Z') || ('0' ≤ c && c ≤ '9') || c = '_'

/-- Longest `\w*` run at the head of the list, plus the rest. -/
def wordRun : List Char → List Char × List Char
  | [] => ([], [])
  | c :: cs =>
      if isWordChar c then
        let wr := wordRun cs
        (c :: wr.1, wr.2)
      else ([], c :: cs)

/-- Fuelled scanner for the `/"(\w+)":/g → '$1:'` replacement: a match
is a `"`, a non-empty `\w` run, then `":`; on a failed attempt the
scanner emits the quote and resumes one character later, exactly like
the regex engine.  The fuel bounds the number of consumed characters,
so the definition is structural and computes by kernel reduction. -/
def rkAux : Nat → List Char → List Char
  | 0, s => s
  | _ + 1, [] => []
  | fuel + 1, c :: cs =>
      if c = '"' then
        if (wordRun cs).1 ≠ [] ∧ (wordRun cs).2.take 2 = ['"', ':'] then
          (wordRun cs).1 ++ ':' :: rkAux fuel ((wordRun cs).2.drop 2)
        else '"' :: rkAux fuel cs
      else c :: rkAux fuel cs

/-- The regex replacement applied to a whole string. -/
def replaceWordKeys (s : String) : String :=
  ⟨rkAux s.data.length s.data⟩

/-- A leaf value of the serialized metadata: a JSON string or number. -/
inductive FlatVal where
  | str (s : String)
  | num (n : Int)
deriving DecidableEq, Repr

def digitChar10 (d : Nat) : Char :=
  if d = 0 then '0' else if d = 1 then '1' else if d = 2 then '2'
  else if d = 3 then '3' else if d = 4 then '4' else if d = 5 then '5'
  else if d = 6 then '6' else if d = 7 then '7' else if d = 8 then '8' else '9'

/-- Decimal digits of a natural number (fuelled for kernel reduction). -/
def natDigitsAux : Nat → Nat → List Char
  | 0, _ => []
  | fuel + 1, n =>
      if n < 10 then [digitChar10 n]
      else natDigitsAux fuel (n / 10) ++ [digitChar10 (n % 10)]

def natDigits (n : Nat) : List Char := natDigitsAux (n + 1) n

/-- Decimal rendering of an integer, as `JSON.stringify` emits it. -/
def renderInt (n : Int) : List Char :=
  (if n < 0 then ['-'] else []) ++ natDigits n.natAbs

/-- `JSON.stringify` of a leaf.  String contents are rendered verbatim;
the claims constrain them to characters `JSON.stringify` never escapes
(no `"`, no `\`, no control characters). -/
def renderVal : FlatVal → List Char
  | .str s => '"' :: s.data ++ ['"']
  | .num n => renderInt n

/-- `JSON.stringify` of the entries of a flat object, without the
surrounding braces. -/
def renderEntries : List (String × FlatVal) → List Char
  | [] => []
  | [(k, v)] => '"' :: k.data ++ '"' :: ':' :: renderVal v
  | (k, v) :: rest =>
      '"' :: k.data ++ '"' :: ':' :: renderVal v ++ ',' :: renderEntries rest

/-- `JSON.stringify` of a flat JS object (insertion-ordered keys). -/
def stringifyFlat (kvs : List (String × FlatVal)) : List Char :=
  '{' :: renderEntries kvs ++ ['}']

/-- `stripSerializedMetadata` on a flat metadata object. -/
def stripSerializedMetadata (kvs : List (String × FlatVal)) : String :=
  replaceWordKeys ⟨stringifyFlat kvs⟩

/-- How one entry appears in the output text: the key is unquoted
exactly when it is a non-empty `\w+` word. -/
def renderEntryStripped (k : String) (v : FlatVal) : List Char :=
  (if k ≠ "" && k.data.all isWordChar then k.data else '"' :: k.data ++ ['"'])
    ++ ':' :: renderVal v

def renderEntriesStripped : List (String × FlatVal) → List Char
  | [] => []
  | [(k, v)] => renderEntryStripped k v
  | (k, v) :: rest => renderEntryStripped k v ++ ',' :: renderEntriesStripped rest

/-! ## Theorems -/

/-- C10: `parse "Hello {{name}}!"` returns exactly three parts: the
literal `"Hello "`, a two-way binding (mode `'{'`) with source path
`"name"` and dependency list `["name"]`, and the literal `"!"`. -/
theorem parse_hello_name_example :
    parse "Hello \x7b\x7bname\x7d\x7d!" ({} : TemplateInfo) =
      [Part.literal "Hello ",
       Part.binding { mode := '{', dependencies := ["name"], startChar := 14,
                      source := some "name" },
       Part.literal "!"] := by
  decide

/-- C1 (counterexample): `parse "abc"` — an input with no `'{'` or
`'['` — returns the empty part list, not `[Literal "abc"]`: the final
literal flush (line 332) is guarded by `parts.length`, which is zero
when no binding was found. -/
theorem parse_no_delimiters_cex :
    parse "abc" ({} : TemplateInfo) = [] ∧
    parse "abc" ({} : TemplateInfo) ≠ [Part.literal "abc"] := by
  decide

/-- C5 (counterexample): on the malformed input `"{{foo"` the scanner
emits no `console.warn` diagnostic at all — the warning list of the run
is empty, contradicting the claimed warning-level diagnostic. -/
theorem parse_unclosed_open_no_warning :
    (parseWithWarnings "\x7b\x7bfoo" ({} : TemplateInfo)).2 = [] := by
  decide

/-- C5 (amended): `parse "{{foo"` terminates normally, but with no
diagnostic and no fallback literal: the result is the empty part list
and the empty warning list (the unmatched text is silently dropped). -/
theorem parse_unclosed_open_silent_empty :
    parseWithWarnings "\x7b\x7bfoo" ({} : TemplateInfo) = ([], []) := by
  decide

/-- The signature produced for `"{{foo(1)}}"` with no dynamic functions. -/
def staticCallSig : Sig :=
  { methodName := "foo"
    args := [{ name := "1", value := some (ArgVal.num "1"), literal := true }]
    static := true
    dynamicFn := true }

/-- The binding produced for `"{{foo(1)}}"` with no dynamic functions. -/
def staticCallOut : BindingData :=
  { mode := '{', dependencies := ["foo"], startChar := 10,
    signature := some staticCallSig }

/-- C4 (counterexample): for `"{{foo(1)}}"` every argument is a
literal and `"foo"` is not in the (empty) dynamic-function set, yet the
parser marks the signature `dynamicFn := true` and pushes `"foo"` into
the dependency list — `storeMethod` fires on
`dynamicFns[name] || signature.static`, so an all-literal call is
treated as dynamic, the opposite of the claimed behaviour. -/
theorem parse_static_call_marked_dynamic_cex :
    parse "\x7b\x7bfoo(1)\x7d\x7d" ({} : TemplateInfo) = [Part.binding staticCallOut] ∧
    inDynamicFns ({} : TemplateInfo) "foo" = false ∧
    staticCallSig.args.all (fun a => a.literal) = true ∧
    staticCallSig.dynamicFn = true ∧
    "foo" ∈ staticCallOut.dependencies := by
  decide

/-- The binding produced for `"{{foo()}}"`: `storeMethod` runs twice in
the `')'` branch of `STATE.METHOD`, so the method name is pushed twice. -/
def dupDepsOut : BindingData :=
  { mode := '{', dependencies := ["foo", "foo"], startChar := 9,
    signature := some
      { methodName := "foo"
        args := []
        static := true
        dynamicFn := true } }

/-- C9 (counterexample): the dependency list of the binding parsed from
`"{{foo()}}"` is `["foo", "foo"]` — it contains a duplicate entry, so
it is not an ordered set. -/
theorem parse_duplicate_dependencies_cex :
    parse "\x7b\x7bfoo()\x7d\x7d" ({} : TemplateInfo) = [Part.binding dupDepsOut] ∧
    ¬ dupDepsOut.dependencies.Nodup := by
  decide

/-- C2 (counterexample): one raw effect whose `info.cacheName` is
`"longA"`.  The first compaction pass rewrites the cache name to the
token `"0"`; running the pass again on its own output with the same
context looks up `"0"`, misses (the map is keyed by original names),
and rewrites it to a fresh token `"1"` — the data changes, so the
serialization of the twice-compacted table cannot be byte-identical. -/
theorem stripUnnecessaryEffectData_not_idempotent_cex :
    (stripUnnecessaryEffectData
        (stripUnnecessaryEffectData
          [[{ info := some { cacheName := some "longA" } }]] none).1
        (some (stripUnnecessaryEffectData
          [[{ info := some { cacheName := some "longA" } }]] none).2)).1
      ≠ (stripUnnecessaryEffectData
          [[{ info := some { cacheName := some "longA" } }]] none).1 := by
  decide

/-- C3 (counterexample): a table with the single entry `"dead"` and an
empty alias map.  `map.get("dead")` is `undefined`, so the assignment
`effects[map.get(k)] = v` stores the entry under the property name
`"undefined"`; the entry is rekeyed, not removed, and a non-token key
remains in the table. -/
theorem patchUp_dead_entry_not_dropped_cex :
    patchUpObserverArgCache [("dead", [])] [] = [("undefined", [])] ∧
    olookup (patchUpObserverArgCache [("dead", [])] []) "undefined" = some [] := by
  decide

/-- C6 (counterexample): the fix-up regex is `/"(\w+)":/`, not the
claimed `[A-Za-z_$][A-Za-z0-9_$]*` identifier pattern.  The key `"$a"`
matches the claimed pattern but keeps its quotes (`$` is not a `\w`
character), and the key `"0a"` fails the claimed pattern but loses its
quotes (`\w+` accepts a leading digit). -/
theorem stripSerializedMetadata_pattern_cex :
    stripSerializedMetadata [("$a", FlatVal.num 1)] = "\x7b\"$a\":1\x7d" ∧
    stripSerializedMetadata [("0a", FlatVal.num 1)] = "\x7b0a:1\x7d" := by
  decide

/-- C7: cache-name resolution.  A key missing from the context map is
assigned the decimal string of the current counter, which is recorded
and incremented; a key already present returns its recorded token and
leaves the context untouched; and resolving `"longA"`, `"longB"`,
`"longA"` on a fresh context yields the tokens `"0"`, `"1"`, `"0"`. -/
theorem resolveCacheName_first_assigns_then_stable :
    (∀ (ctx : Ctx) (k : String), mget ctx.map k = none →
      resolveCacheName ctx k =
        (toString ctx.index,
         { map := mset ctx.map k (toString ctx.index), index := ctx.index + 1 })) ∧
    (∀ (ctx : Ctx) (k tok : String), mget ctx.map k = some tok →
      resolveCacheName ctx k = (tok, ctx)) ∧
    ((resolveCacheName ({} : Ctx) "longA").1 = "0" ∧
     (resolveCacheName (resolveCacheName ({} : Ctx) "longA").2 "longB").1 = "1" ∧
     (resolveCacheName
        (resolveCacheName (resolveCacheName ({} : Ctx) "longA").2 "longB").2
        "longA").1 = "0") := by
  refine ⟨?_, ?_, ?_⟩
  · intro ctx k h
    simp [resolveCacheName, h]
  · intro ctx k tok h
    simp [resolveCacheName, h]
  · decide

/-- Instantiation of the cache-resolution theorem on a fresh context:
the first resolution of `"longA"` assigns the token `"0"`, and a
repeated resolution on the resulting context returns `"0"` again. -/
theorem resolveCacheName_first_assigns_then_stable_witness :
    resolveCacheName ({} : Ctx) "longA" =
      ("0", { map := [("longA", "0")], index := 1 }) ∧
    resolveCacheName { map := [("longA", "0")], index := 1 } "longA" =
      ("0", { map := [("longA", "0")], index := 1 }) := by
  constructor
  · exact resolveCacheName_first_assigns_then_stable.1 {} "longA" (by decide)
  · exact resolveCacheName_first_assigns_then_stable.2.1
      { map := [("longA", "0")], index := 1 } "longA" "0" (by decide)

/-- In the `INITIAL` state, any character other than `'{'` and `'['`
leaves the machine state unchanged. -/
theorem step_initial_skip (text : List Char) (tinfo : TemplateInfo) (i : Nat)
    (st : PState) (c : Char) (hst : st.state = .INITIAL)
    (h1 : c ≠ '{') (h2 : c ≠ '[') : step text tinfo i st c = st := by
  unfold step
  rw [hst]
  simp [h1, h2]

/-- A run over characters free of `'{'` and `'['` starting in `INITIAL`
never leaves the initial machine state. -/
theorem runAux_initial_skip (text : List Char) (tinfo : TemplateInfo) :
    ∀ (cs : List Char) (i : Nat) (st : PState), st.state = .INITIAL →
      (∀ c ∈ cs, c ≠ '{' ∧ c ≠ '[') → runAux text tinfo i cs st = st := by
  intro cs
  induction cs with
  | nil => intro i st _ _; rfl
  | cons c cs ih =>
      intro i st hst h
      have hc := h c (List.mem_cons_self c cs)
      rw [runAux, step_initial_skip text tinfo i st c hst hc.1 hc.2]
      exact ih (i + 1) st hst (fun d hd => h d (List.mem_cons_of_mem c hd))

/-- C1 (amended): for every input containing no `'{'` and no `'['`,
`parse` returns the empty part sequence — no `Literal` part is emitted,
because the trailing-literal flush only runs when at least one part was
already pushed. -/
theorem parse_no_delimiters_returns_empty (text : String) (tinfo : TemplateInfo)
    (h : ∀ c ∈ text.data, c ≠ '{' ∧ c ≠ '[') : parse text tinfo = [] := by
  unfold parse parseWithWarnings
  dsimp only
  rw [runAux_initial_skip text.data tinfo text.data 0 ({} : PState) rfl h]
  rfl

/-- Instantiation of the delimiter-free theorem at `"abc"`. -/
theorem parse_no_delimiters_returns_empty_witness :
    parse "abc" ({} : TemplateInfo) = [] :=
  parse_no_delimiters_returns_empty "abc" {} (by decide)

/-! ### C8: the alias map is fully populated before the observer-arg
cache is rekeyed. -/

theorem mget_mset (m : List (String × String)) (k v q : String) :
    mget (mset m k v) q = if q = k then some v else mget m q := by
  induction m with
  | nil => simp [mset, mget]
  | cons kv rest ih =>
      obtain ⟨k0, v0⟩ := kv
      by_cases h : k0 = k
      · subst h
        by_cases hq : q = k0 <;> simp [mset, mget, hq]
      · by_cases hq : q = k0
        · subst hq
          have hqk : q ≠ k := h
          simp [mset, mget, h, hqk]
        · simp [mset, mget, h, hq, ih]

/-- Resolving one key never drops an existing map entry. -/
theorem resolveCacheName_preserves (ctx : Ctx) (k n t : String)
    (h : mget ctx.map n = some t) :
    mget (resolveCacheName ctx k).2.map n = some t := by
  unfold resolveCacheName
  cases hm : mget ctx.map k with
  | some tok => simpa using h
  | none =>
      by_cases hn : n = k
      · rw [hn] at h; rw [h] at hm; cases hm
      · simp [mget_mset, hn, h]

/-- After resolving a key, the key is in the map. -/
theorem resolveCacheName_adds (ctx : Ctx) (k : String) :
    (mget (resolveCacheName ctx k).2.map k).isSome = true := by
  unfold resolveCacheName
  cases hm : mget ctx.map k with
  | some tok => simp [hm]
  | none => simp [mget_mset]

/-- `stripInfoPre` only touches `args`, `methodInfo` and `dynamicFn`. -/
theorem stripInfoPre_cacheName (i : SInfo) :
    (stripInfoPre i).cacheName = i.cacheName := by
  unfold stripInfoPre
  cases i.args <;> (dsimp only; split <;> split <;> rfl)

theorem resolveInfoCache_preserves (info : SInfo) (ctx : Ctx) (n t : String)
    (h : mget ctx.map n = some t) :
    mget (resolveInfoCache info ctx).2.map n = some t := by
  cases hcc : info.cacheName with
  | none => simpa [resolveInfoCache, hcc] using h
  | some cn =>
      by_cases hcn : cn = ""
      · simpa [resolveInfoCache, hcc, hcn] using h
      · simpa [resolveInfoCache, hcc, hcn] using
          resolveCacheName_preserves ctx cn n t h

theorem resolveInfoCache_adds (info : SInfo) (ctx : Ctx) (n : String)
    (hc : info.cacheName = some n) (hn : n ≠ "") :
    (mget (resolveInfoCache info ctx).2.map n).isSome = true := by
  simpa [resolveInfoCache, hc, hn] using resolveCacheName_adds ctx n

theorem stripInfoData_preserves (i : SInfo) (ctx : Ctx) (n t : String)
    (h : mget ctx.map n = some t) :
    mget (stripInfoData i ctx).2.map n = some t := by
  unfold stripInfoData
  dsimp only
  exact resolveInfoCache_preserves (stripInfoPre i) ctx n t h

theorem stripInfoData_adds (i : SInfo) (ctx : Ctx) (n : String)
    (hc : i.cacheName = some n) (hn : n ≠ "") :
    (mget (stripInfoData i ctx).2.map n).isSome = true := by
  unfold stripInfoData
  dsimp only
  exact resolveInfoCache_adds (stripInfoPre i) ctx n
    (by rw [stripInfoPre_cacheName, hc]) hn

theorem stripEffect_snd (e : SEffect) (ctx : Ctx) :
    (stripEffect e ctx).2 =
      match e.info with
      | some i => (stripInfoData i ctx).2
      | none => ctx := by
  obtain ⟨tr, inf⟩ := e
  unfold stripEffect
  cases tr <;> cases inf <;> rfl

theorem stripEffect_preserves (e : SEffect) (ctx : Ctx) (n t : String)
    (h : mget ctx.map n = some t) :
    mget (stripEffect e ctx).2.map n = some t := by
  rw [stripEffect_snd]
  cases hi : e.info with
  | none => simpa using h
  | some i => simpa using stripInfoData_preserves i ctx n t h

theorem stripEffect_adds (e : SEffect) (ctx : Ctx) (i : SInfo) (n : String)
    (hi : e.info = some i) (hc : i.cacheName = some n) (hn : n ≠ "") :
    (mget (stripEffect e ctx).2.map n).isSome = true := by
  rw [stripEffect_snd, hi]
  simpa using stripInfoData_adds i ctx n hc hn

theorem stripRow_preserves (row : List SEffect) (ctx : Ctx) (n t : String)
    (h : mget ctx.map n = some t) :
    mget (stripRow row ctx).2.map n = some t := by
  induction row generalizing ctx with
  | nil => simpa using h
  | cons e rest ih =>
      simp only [stripRow]
      exact ih (stripEffect e ctx).2 (stripEffect_preserves e ctx n t h)

/-- Once a key is in the map it survives the rest of a row. -/
theorem stripRow_preserves_isSome (row : List SEffect) (ctx : Ctx) (n : String)
    (h : (mget ctx.map n).isSome = true) :
    (mget (stripRow row ctx).2.map n).isSome = true := by
  cases hm : mget ctx.map n with
  | none => rw [hm] at h; cases h
  | some t => simp [stripRow_preserves row ctx n t hm]

theorem stripRow_covers (row : List SEffect) (ctx : Ctx) (e : SEffect)
    (i : SInfo) (n : String) (he : e ∈ row) (hi : e.info = some i)
    (hc : i.cacheName = some n) (hn : n ≠ "") :
    (mget (stripRow row ctx).2.map n).isSome = true := by
  induction row generalizing ctx with
  | nil => cases he
  | cons e0 rest ih =>
      simp only [stripRow]
      rcases List.mem_cons.mp he with he0 | hrest
      · subst he0
        exact stripRow_preserves_isSome rest _ n (stripEffect_adds e ctx i n hi hc hn)
      · exact ih (stripEffect e0 ctx).2 hrest

theorem stripRows_preserves_isSome (rows : List (List SEffect)) (ctx : Ctx)
    (n : String) (h : (mget ctx.map n).isSome = true) :
    (mget (stripRows rows ctx).2.map n).isSome = true := by
  induction rows generalizing ctx with
  | nil => simpa using h
  | cons row rest ih =>
      simp only [stripRows]
      exact ih (stripRow row ctx).2 (stripRow_preserves_isSome row ctx n h)

/-- A cache name referenced anywhere in an effect table. -/
def tableRefs (rows : List (List SEffect)) (n : String) : Prop :=
  ∃ row ∈ rows, ∃ e ∈ row, ∃ i, e.info = some i ∧ i.cacheName = some n

theorem stripRows_covers (rows : List (List SEffect)) (ctx : Ctx) (n : String)
    (h : tableRefs rows n) (hn : n ≠ "") :
    (mget (stripRows rows ctx).2.map n).isSome = true := by
  induction rows generalizing ctx with
  | nil => rcases h with ⟨row, hrow, _⟩; cases hrow
  | cons row rest ih =>
      simp only [stripRows]
      rcases h with ⟨row0, hrow0, e, he, i, hi, hc⟩
      rcases List.mem_cons.mp hrow0 with h0 | h0
      · subst h0
        exact stripRows_preserves_isSome rest _ n
          (stripRow_covers row0 ctx e i n he hi hc hn)
      · exact ih (stripRow row ctx).2 ⟨row0, h0, e, he, i, hi, hc⟩

theorem stripUnnecessaryEffectData_covers (rows : List (List SEffect))
    (ctxOpt : Option Ctx) (n : String) (h : tableRefs rows n) (hn : n ≠ "") :
    (mget (stripUnnecessaryEffectData rows ctxOpt).2.map n).isSome = true := by
  cases ctxOpt <;> exact stripRows_covers _ _ n h hn

/-- Whether an optional context's map has an entry for `n`. -/
def ctxHas (oc : Option Ctx) (n : String) : Bool :=
  match oc with
  | some c => (mget c.map n).isSome
  | none => false

theorem stripUnnecessaryEffectData_preserves_ctxHas (rows : List (List SEffect))
    (oc : Option Ctx) (n : String) (h : ctxHas oc n = true) :
    (mget (stripUnnecessaryEffectData rows oc).2.map n).isSome = true := by
  cases oc with
  | none => cases h
  | some c => exact stripRows_preserves_isSome rows c n (by simpa [ctxHas] using h)

theorem computeStripStep_observeEffects (p : Proto) :
    (computeStripStep p).observeEffects = p.observeEffects := by
  unfold computeStripStep
  cases p.computeEffects <;> rfl

theorem computeStripStep_covers (p : Proto) (n : String)
    (rows : List (List SEffect)) (hc : p.computeEffects = some rows)
    (href : tableRefs rows n) (hn : n ≠ "") :
    ctxHas (computeStripStep p).context n = true := by
  unfold computeStripStep
  rw [hc]
  simpa [ctxHas] using stripUnnecessaryEffectData_covers rows p.context n href hn

theorem observeStripStep_preserves (p : Proto) (n : String)
    (h : ctxHas p.context n = true) :
    ctxHas (observeStripStep p).context n = true := by
  unfold observeStripStep
  cases ho : p.observeEffects with
  | none => simpa using h
  | some es =>
      simpa [ctxHas] using stripUnnecessaryEffectData_preserves_ctxHas es p.context n h

theorem observeStripStep_covers (p : Proto) (n : String)
    (rows : List (List SEffect)) (ho : p.observeEffects = some rows)
    (href : tableRefs rows n) (hn : n ≠ "") :
    ctxHas (observeStripStep p).context n = true := by
  unfold observeStripStep
  rw [ho]
  simpa [ctxHas] using stripUnnecessaryEffectData_covers rows p.context n href hn

/-- C8: within one prototype's `serializeEffectsInBrowser` run, by the
time `patchUpObserverArgCache` reads the alias map (i.e. after both
`stripUnnecessaryEffectData` passes), every truthy cache name
referenced by any compute- or observe-effect record of that prototype
has already been assigned a token in the map. -/
theorem mapAtPatch_covers_referenced_names (p : Proto) (n : String) (hn : n ≠ "")
    (h : (∃ rows, p.computeEffects = some rows ∧ tableRefs rows n) ∨
         (∃ rows, p.observeEffects = some rows ∧ tableRefs rows n)) :
    (mget (mapAtPatch p) n).isSome = true := by
  have hphase : ctxHas (effectStripPhase p).context n = true := by
    unfold effectStripPhase
    rcases h with ⟨rows, hc, href⟩ | ⟨rows, ho, href⟩
    · exact observeStripStep_preserves _ n (computeStripStep_covers p n rows hc href hn)
    · exact observeStripStep_covers _ n rows
        (by rw [computeStripStep_observeEffects, ho]) href hn
  unfold mapAtPatch
  cases hctx : (effectStripPhase p).context with
  | none => rw [hctx] at hphase; cases hphase
  | some c => rw [hctx] at hphase; simpa [ctxHas] using hphase

/-- Instantiation of the C8 theorem: a prototype whose compute-effect
table references the cache name `"n"` has `"n"` in the alias map at the
moment the observer-arg cache is rekeyed. -/
theorem mapAtPatch_covers_referenced_names_witness :
    (mget
      (mapAtPatch
        { computeEffects := some [[{ info := some { cacheName := some "n" } }]],
          observerArgCache := some [("n", [])] })
      "n").isSome = true := by
  refine mapAtPatch_covers_referenced_names _ "n" (by decide) ?_
  exact Or.inl ⟨_, rfl, [{ info := some { cacheName := some "n" } }],
    List.mem_singleton.mpr rfl, { info := some { cacheName := some "n" } },
    List.mem_singleton.mpr rfl, { cacheName := some "n" }, rfl, rfl⟩

/-! ### C2: idempotence of the compaction pass on tables without cache
names, and the cache-name counterexample machinery. -/

theorem stripArg_idem (a : SArg) : stripArg (stripArg a) = stripArg a := by
  obtain ⟨nm, s, w⟩ := a
  rcases s with _ | b1 <;> rcases w with _ | b2
  · rfl
  · cases b2 <;> rfl
  · cases b1 <;> rfl
  · cases b1 <;> cases b2 <;> rfl

theorem stripTrigger_idem (t : STrigger) :
    stripTrigger (stripTrigger t) = stripTrigger t := by
  obtain ⟨nm, rp, s, w⟩ := t
  rcases s with _ | b1 <;> rcases w with _ | b2
  · rfl
  · cases b2 <;> rfl
  · cases b1 <;> rfl
  · cases b1 <;> cases b2 <;> rfl

theorem stripInfoPre_idem (i : SInfo) :
    stripInfoPre (stripInfoPre i) = stripInfoPre i := by
  obtain ⟨mn, ar, mi, dy, cn, pt⟩ := i
  rcases ar with _ | as <;> rcases mi with _ | b1 <;> rcases dy with _ | b2 <;>
    first
      | (cases b1 <;> cases b2 <;>
          simp [stripInfoPre, jsTruthyB, List.map_map, Function.comp, stripArg_idem])
      | (cases b1 <;>
          simp [stripInfoPre, jsTruthyB, List.map_map, Function.comp, stripArg_idem])
      | (cases b2 <;>
          simp [stripInfoPre, jsTruthyB, List.map_map, Function.comp, stripArg_idem])
      | simp [stripInfoPre, jsTruthyB, List.map_map, Function.comp, stripArg_idem]

/-- `stripInfoPre` does not read or write `part`. -/
theorem stripInfoPre_set_part (i : SInfo) (x : Option String) :
    stripInfoPre { i with part := x } = { stripInfoPre i with part := x } := by
  obtain ⟨mn, ar, mi, dy, cn, pt⟩ := i
  rcases ar with _ | as <;> rcases mi with _ | b1 <;> rcases dy with _ | b2 <;>
    first
      | (cases b1 <;> cases b2 <;> rfl)
      | (cases b1 <;> rfl)
      | (cases b2 <;> rfl)
      | rfl

/-- `stripInfoPost` either leaves the record unchanged or clears `part`. -/
theorem stripInfoPost_cases (i : SInfo) :
    stripInfoPost i = i ∨ stripInfoPost i = { i with part := none } := by
  unfold stripInfoPost
  by_cases h : jsTruthyS i.part
  · right; rw [if_pos h]
  · left; rw [if_neg h]

theorem stripInfoPost_idem (i : SInfo) :
    stripInfoPost (stripInfoPost i) = stripInfoPost i := by
  by_cases h : jsTruthyS i.part
  · have h1 : stripInfoPost i = { i with part := none } := by
      unfold stripInfoPost; rw [if_pos h]
    rw [h1]
    rfl
  · have h1 : stripInfoPost i = i := by
      unfold stripInfoPost; rw [if_neg h]
    rw [h1, h1]

theorem stripInfoPost_cacheName (i : SInfo) :
    (stripInfoPost i).cacheName = i.cacheName := by
  unfold stripInfoPost
  split <;> rfl

/-- The compacted info record is a fixpoint of `stripInfoPre`. -/
theorem stripInfoPre_fix (i : SInfo) :
    stripInfoPre (stripInfoPost (stripInfoPre i)) = stripInfoPost (stripInfoPre i) := by
  rcases stripInfoPost_cases (stripInfoPre i) with h | h
  · rw [h, stripInfoPre_idem]
  · rw [h, stripInfoPre_set_part, stripInfoPre_idem]

/-- When `cacheName` is falsy, the resolve step is skipped. -/
theorem stripInfoData_skip (i : SInfo) (ctx : Ctx)
    (h : jsTruthyS i.cacheName = false) :
    stripInfoData i ctx = (stripInfoPost (stripInfoPre i), ctx) := by
  unfold stripInfoData resolveInfoCache
  cases hcc : (stripInfoPre i).cacheName with
  | none => rfl
  | some cn =>
      have : cn = "" := by
        rw [stripInfoPre_cacheName] at hcc
        rw [hcc] at h
        simpa [jsTruthyS] using h
      simp [this]

/-- On a falsy `cacheName`, one compaction of the info record reaches a
fixpoint: a second pass returns it unchanged with an untouched context. -/
theorem stripInfoData_idem (i : SInfo) (ctx ctx' : Ctx)
    (h : jsTruthyS i.cacheName = false) :
    stripInfoData (stripInfoData i ctx).1 ctx' = ((stripInfoData i ctx).1, ctx') := by
  rw [stripInfoData_skip i ctx h]
  have hcn : jsTruthyS (stripInfoPost (stripInfoPre i)).cacheName = false := by
    rw [stripInfoPost_cacheName, stripInfoPre_cacheName]; exact h
  rw [stripInfoData_skip _ ctx' hcn]
  rw [stripInfoPre_fix, stripInfoPost_idem]

/-- Normal form of one `stripEffect` application. -/
theorem stripEffect_eq (tr : Option STrigger) (inf : Option SInfo) (ctx : Ctx) :
    stripEffect ⟨tr, inf⟩ ctx =
      match inf with
      | some i =>
          (⟨tr.map stripTrigger, some (stripInfoData i ctx).1⟩,
           (stripInfoData i ctx).2)
      | none => (⟨tr.map stripTrigger, none⟩, ctx) := by
  unfold stripEffect
  cases tr <;> cases inf <;> rfl

theorem optTrigger_idem (tr : Option STrigger) :
    (tr.map stripTrigger).map stripTrigger = tr.map stripTrigger := by
  cases tr with
  | none => rfl
  | some t => simp [stripTrigger_idem]

theorem stripTrigger_comp : stripTrigger ∘ stripTrigger = stripTrigger :=
  funext stripTrigger_idem

/-- An effect whose info has a falsy `cacheName` leaves the context
untouched. -/
theorem stripEffect_skip_snd (e : SEffect) (ctx : Ctx)
    (h : ∀ i, e.info = some i → jsTruthyS i.cacheName = false) :
    (stripEffect e ctx).2 = ctx := by
  obtain ⟨tr, inf⟩ := e
  rw [stripEffect_eq]
  cases inf with
  | none => rfl
  | some i =>
      dsimp only
      rw [stripInfoData_skip i ctx (h i rfl)]

/-- A compacted effect with falsy `cacheName` is a fixpoint of the
compaction. -/
theorem stripEffect_fst_idem (e : SEffect) (ctx ctx' : Ctx)
    (h : ∀ i, e.info = some i → jsTruthyS i.cacheName = false) :
    stripEffect (stripEffect e ctx).1 ctx' = ((stripEffect e ctx).1, ctx') := by
  obtain ⟨tr, inf⟩ := e
  cases inf with
  | none =>
      simp only [stripEffect_eq]
      simp [optTrigger_idem, stripTrigger_comp]
  | some i =>
      have hi := h i rfl
      simp only [stripEffect_eq]
      simp [optTrigger_idem, stripTrigger_comp, stripInfoData_idem i ctx ctx' hi]

/-- No effect of the row carries a truthy `cacheName`. -/
def rowNoCache (row : List SEffect) : Prop :=
  ∀ e ∈ row, ∀ i, e.info = some i → jsTruthyS i.cacheName = false

theorem stripRow_idem (row : List SEffect) :
    rowNoCache row → ∀ ctx ctx' : Ctx,
      (stripRow row ctx).2 = ctx ∧
      stripRow (stripRow row ctx).1 ctx' = ((stripRow row ctx).1, ctx') := by
  induction row with
  | nil => intro _ ctx ctx'; exact ⟨rfl, rfl⟩
  | cons e rest ih =>
      intro h ctx ctx'
      have he : ∀ i, e.info = some i → jsTruthyS i.cacheName = false :=
        fun i hi => h e (List.mem_cons_self e rest) i hi
      have hrest : rowNoCache rest :=
        fun e0 he0 i hi => h e0 (List.mem_cons_of_mem e he0) i hi
      constructor
      · show (stripRow (e :: rest) ctx).2 = ctx
        simp only [stripRow]
        rw [stripEffect_skip_snd e ctx he]
        exact (ih hrest ctx ctx').1
      · show stripRow (stripRow (e :: rest) ctx).1 ctx' = _
        simp only [stripRow]
        rw [stripEffect_skip_snd e ctx he]
        rw [stripEffect_fst_idem e ctx ctx' he]
        dsimp only
        rw [(ih hrest ctx ctx').2]

/-- No effect of the table carries a truthy `cacheName`. -/
def tableNoCache (rows : List (List SEffect)) : Prop :=
  ∀ row ∈ rows, rowNoCache row

theorem stripRows_idem (rows : List (List SEffect)) :
    tableNoCache rows → ∀ ctx ctx' : Ctx,
      (stripRows rows ctx).2 = ctx ∧
      stripRows (stripRows rows ctx).1 ctx' = ((stripRows rows ctx).1, ctx') := by
  induction rows with
  | nil => intro _ ctx ctx'; exact ⟨rfl, rfl⟩
  | cons row rest ih =>
      intro h ctx ctx'
      have hrow : rowNoCache row := h row (List.mem_cons_self row rest)
      have hrest : tableNoCache rest :=
        fun r hr => h r (List.mem_cons_of_mem row hr)
      constructor
      · show (stripRows (row :: rest) ctx).2 = ctx
        simp only [stripRows]
        rw [(stripRow_idem row hrow ctx ctx').1]
        exact (ih hrest ctx ctx').1
      · show stripRows (stripRows (row :: rest) ctx).1 ctx' = _
        simp only [stripRows]
        rw [(stripRow_idem row hrow ctx ctx').1]
        rw [(stripRow_idem row hrow ctx ctx').2]
        dsimp only
        rw [(ih hrest ctx ctx').2]

/-- C2 (amended): the compaction pass is idempotent exactly on tables
whose effects carry no truthy `cacheName`: re-running
`stripUnnecessaryEffectData` on its own output with the resulting
`CacheContext` returns the same effects and the same context.  (With a
truthy `cacheName` present it is not idempotent — see the
counterexample: the second pass assigns a fresh token.) -/
theorem stripUnnecessaryEffectData_idempotent_noCache
    (rows : List (List SEffect)) (ctxOpt : Option Ctx)
    (h : ∀ row ∈ rows, ∀ e ∈ row, ∀ i, e.info = some i →
      jsTruthyS i.cacheName = false) :
    stripUnnecessaryEffectData (stripUnnecessaryEffectData rows ctxOpt).1
        (some (stripUnnecessaryEffectData rows ctxOpt).2)
      = stripUnnecessaryEffectData rows ctxOpt := by
  have htab : tableNoCache rows := h
  cases ctxOpt with
  | none =>
      show stripRows (stripRows rows _).1 (stripRows rows _).2 = stripRows rows _
      rw [(stripRows_idem rows htab _ (stripRows rows { map := [], index := 0 }).2).2]
  | some c =>
      show stripRows (stripRows rows c).1 (stripRows rows c).2 = stripRows rows c
      rw [(stripRows_idem rows htab c (stripRows rows c).2).2]

/-- Instantiation of the idempotence theorem: a table with one
cache-name-free effect record compacts to a fixpoint. -/
theorem stripUnnecessaryEffectData_idempotent_noCache_witness :
    stripUnnecessaryEffectData
        (stripUnnecessaryEffectData
          [[{ info := some { methodInfo := some false } }]] none).1
        (some (stripUnnecessaryEffectData
          [[{ info := some { methodInfo := some false } }]] none).2)
      = stripUnnecessaryEffectData
          [[{ info := some { methodInfo := some false } }]] none :=
  stripUnnecessaryEffectData_idempotent_noCache
    [[{ info := some { methodInfo := some false } }]] none (by decide)

/-! ### C3: dead observer-arg cache entries are rekeyed to
`"undefined"`, not dropped. -/

theorem olookup_oset (t : List (String × List SArg)) (k : String)
    (v : List SArg) (q : String) :
    olookup (oset t k v) q = if q = k then some v else olookup t q := by
  induction t with
  | nil => simp [oset, olookup]
  | cons kv rest ih =>
      obtain ⟨k0, v0⟩ := kv
      by_cases h : k0 = k
      · subst h
        by_cases hq : q = k0 <;> simp [oset, olookup, hq]
      · by_cases hq : q = k0
        · subst hq
          have hqk : q ≠ k := h
          simp [oset, olookup, h, hqk]
        · simp [oset, olookup, h, hq, ih]

theorem olookup_odel (t : List (String × List SArg)) (k q : String) :
    olookup (odel t k) q = if q = k then none else olookup t q := by
  induction t with
  | nil => simp [odel, olookup]
  | cons kv rest ih =>
      obtain ⟨k0, v0⟩ := kv
      simp only [odel]
      by_cases h : k0 = k
      · rw [if_pos h, ih]
        by_cases hq : q = k
        · simp [hq]
        · have hq0 : q ≠ k0 := fun hh => hq (hh.trans h)
          simp [hq, olookup, hq0]
      · rw [if_neg h]
        simp only [olookup]
        by_cases hq : q = k0
        · have hqk : q ≠ k := fun hh => h (by rw [← hq, hh])
          simp [hq, hqk, h]
        · simp [hq, ih]

/-- A key that maps to no token and is never a token value stays absent
through the rekeying loop. -/
theorem patchUpGo_absent_stays_absent (m : List (String × String)) (k : String)
    (hk : k ≠ "undefined") :
    ∀ (entries : List (String × List SArg)) (acc : List (String × List SArg)),
      olookup acc k = none →
      (∀ kv ∈ entries, ∀ tok, mget m kv.1 = some tok → tok ≠ k) →
      olookup (patchUpGo m entries acc) k = none := by
  intro entries
  induction entries with
  | nil => intro acc h _; exact h
  | cons kv rest ih =>
      intro acc hacc htok
      obtain ⟨k0, v0⟩ := kv
      simp only [patchUpGo]
      apply ih _ ?_ (fun kv2 h2 => htok kv2 (List.mem_cons_of_mem _ h2))
      rw [olookup_odel]
      by_cases hk0 : k = k0
      · simp [hk0]
      · rw [if_neg hk0, olookup_oset]
        cases hm : mget m k0 with
        | none => simpa [hk] using hacc
        | some tok =>
            have htk : tok ≠ k := htok (k0, v0) (List.mem_cons_self _ _) tok hm
            simp [Ne.symm htk, hacc]

/-- Every entry whose key is absent from the map is removed under its
original key by the loop. -/
theorem patchUpGo_removes_dead_key (m : List (String × String)) (k : String)
    (hk : k ≠ "undefined") :
    ∀ (entries : List (String × List SArg)) (acc : List (String × List SArg)),
      (∃ kv ∈ entries, kv.1 = k) →
      mget m k = none →
      (∀ kv ∈ entries, ∀ tok, mget m kv.1 = some tok → tok ≠ k) →
      olookup (patchUpGo m entries acc) k = none := by
  intro entries
  induction entries with
  | nil => rintro acc ⟨kv, hkv, _⟩ _ _; cases hkv
  | cons kv0 rest ih =>
      rintro acc ⟨kv, hkv, hkveq⟩ hdead htok
      obtain ⟨k0, v0⟩ := kv0
      rcases List.mem_cons.mp hkv with h0 | h0
      · -- the dead entry is the head: it gets deleted, and stays absent
        have hk0 : k0 = k := by rw [← hkveq, h0]
        subst hk0
        simp only [patchUpGo]
        apply patchUpGo_absent_stays_absent m k0 hk rest _ ?_
          (fun kv2 h2 => htok kv2 (List.mem_cons_of_mem _ h2))
        rw [olookup_odel]
        simp
      · -- the dead entry is further on
        simp only [patchUpGo]
        exact ih _ ⟨kv, h0, hkveq⟩ hdead
          (fun kv2 h2 => htok kv2 (List.mem_cons_of_mem _ h2))

/-- The last entry of the snapshot whose key misses the alias map. -/
def lastDeadEntry (m : List (String × String)) :
    List (String × List SArg) → Option (String × List SArg)
  | [] => none
  | kv :: rest =>
      match lastDeadEntry m rest with
      | some kv2 => some kv2
      | none => if (mget m kv.1).isNone then some kv else none

/-- What the rekeying loop leaves under the key `"undefined"`: the
stripped args of the last dead entry, if any. -/
theorem patchUpGo_undefined_key (m : List (String × String)) :
    ∀ (entries : List (String × List SArg)) (acc : List (String × List SArg)),
      (∀ kv ∈ entries, kv.1 ≠ "undefined") →
      (∀ kv ∈ entries, ∀ tok, mget m kv.1 = some tok → tok ≠ "undefined") →
      olookup (patchUpGo m entries acc) "undefined" =
        (match lastDeadEntry m entries with
         | some kv => some (kv.2.map stripArg)
         | none => olookup acc "undefined") := by
  intro entries
  induction entries with
  | nil => intro acc _ _; rfl
  | cons kv0 rest ih =>
      intro acc hkeys htok
      obtain ⟨k0, v0⟩ := kv0
      have hk0 : k0 ≠ "undefined" := hkeys (k0, v0) (List.mem_cons_self _ _)
      simp only [patchUpGo]
      rw [ih _ (fun kv2 h2 => hkeys kv2 (List.mem_cons_of_mem _ h2))
            (fun kv2 h2 => htok kv2 (List.mem_cons_of_mem _ h2))]
      cases hld : lastDeadEntry m rest with
      | some kv2 => simp [lastDeadEntry, hld]
      | none =>
          rw [olookup_odel, if_neg (Ne.symm hk0), olookup_oset]
          cases hm : mget m k0 with
          | none => simp [lastDeadEntry, hld, hm]
          | some tok =>
              have htk : tok ≠ "undefined" :=
                htok (k0, v0) (List.mem_cons_self _ _) tok hm
              simp [lastDeadEntry, hld, hm, Ne.symm htk]

theorem olookup_eq_none (t : List (String × List SArg)) (q : String)
    (h : ∀ kv ∈ t, kv.1 ≠ q) : olookup t q = none := by
  induction t with
  | nil => rfl
  | cons kv rest ih =>
      obtain ⟨k0, v0⟩ := kv
      have hk0 : k0 ≠ q := h (k0, v0) (List.mem_cons_self _ _)
      simp only [olookup]
      rw [if_neg (Ne.symm hk0)]
      exact ih (fun kv2 h2 => h kv2 (List.mem_cons_of_mem _ h2))

/-- C3 (amended): `patchUpObserverArgCache` does remove every dead
original key, but it does not drop the dead entries: each entry whose
key is absent from the alias map is re-keyed under the JS property name
`"undefined"` (later dead entries overwriting earlier ones), so after
the pass the table holds the stripped args of the last dead entry under
`"undefined"`.  The hypotheses record the real shape of the inputs:
no original key is the literal string `"undefined"`, and no token of
the alias map collides with an original key or with `"undefined"`. -/
theorem patchUpObserverArgCache_dead_entries_rekeyed
    (t : List (String × List SArg)) (m : List (String × String))
    (hkeys : ∀ kv ∈ t, kv.1 ≠ "undefined")
    (htok : ∀ kv ∈ t, ∀ tok, mget m kv.1 = some tok →
        (∀ kv2 ∈ t, tok ≠ kv2.1) ∧ tok ≠ "undefined") :
    (∀ kv ∈ t, mget m kv.1 = none →
        olookup (patchUpObserverArgCache t m) kv.1 = none) ∧
    olookup (patchUpObserverArgCache t m) "undefined" =
      (lastDeadEntry m t).map (fun kv => kv.2.map stripArg) := by
  constructor
  · intro kv hkv hdead
    apply patchUpGo_removes_dead_key m kv.1 (hkeys kv hkv) t t ⟨kv, hkv, rfl⟩ hdead
    intro kv2 h2 tok htok2
    exact (htok kv2 h2 tok htok2).1 kv hkv
  · have hmain := patchUpGo_undefined_key m t t hkeys
      (fun kv2 h2 tok htok2 => (htok kv2 h2 tok htok2).2)
    show olookup (patchUpGo m t t) "undefined" = _
    rw [hmain]
    cases hld : lastDeadEntry m t with
    | some kv => simp
    | none =>
        simp only [Option.map_none]
        exact olookup_eq_none t "undefined" hkeys

/-- Instantiation of the dead-entry theorem: the table
`{a: [], dead: []}` with alias map `{a → "0"}`.  The dead key is gone,
and its (stripped) value now sits under `"undefined"`. -/
theorem patchUpObserverArgCache_dead_entries_rekeyed_witness :
    (∀ kv ∈ ([("a", []), ("dead", [])] : List (String × List SArg)),
        mget [("a", "0")] kv.1 = none →
        olookup (patchUpObserverArgCache [("a", []), ("dead", [])] [("a", "0")])
          kv.1 = none) ∧
    olookup (patchUpObserverArgCache [("a", []), ("dead", [])] [("a", "0")])
        "undefined" =
      (lastDeadEntry [("a", "0")] [("a", []), ("dead", [])]).map
        (fun kv => kv.2.map stripArg) := by
  apply patchUpObserverArgCache_dead_entries_rekeyed
  · decide
  · intro kv hkv tok htok2
    have hcases : kv = ("a", []) ∨ kv = ("dead", []) := by simpa using hkv
    rcases hcases with h | h <;> subst h
    · have h0 : mget [("a", "0")] ("a", ([] : List SArg)).1 = some "0" := rfl
      rw [h0] at htok2
      have ht : tok = "0" := (Option.some.inj htok2).symm
      subst ht
      exact ⟨by decide, by decide⟩
    · simp [mget] at htok2

/-! ### C4 / C9: invariants of the scanner output.

`depName` is the dependency name recorded for a property-reference
argument: the stored `arg.name` with the wildcard suffix restored. -/

def depName (a : PArg) : String :=
  a.name ++ (if a.wildcard then ".*" else "")

/-- The dependency list covers everything the binding reads: the source
path of a simple binding, and every non-literal argument of a method
binding. -/
def depsCover (b : BindingData) : Prop :=
  (∀ s, b.source = some s → s ∈ b.dependencies) ∧
  (∀ sig, b.signature = some sig → ∀ a ∈ sig.args, a.literal = false →
    depName a ∈ b.dependencies)

/-- State of a signature while arguments are still being collected. -/
def midSig (b : BindingData) : Prop :=
  ∀ sig, b.signature = some sig →
    sig.dynamicFn = false ∧ sig.static = sig.args.all (fun a => a.literal)

/-- State of a finalized signature (after the `')'` processing):
`dynamicFn` is set exactly when the method name is in the caller's
dynamic-function set or every collected argument is a literal, and a
set `dynamicFn` comes with the method name in the dependency list. -/
def sigFinal (tinfo : TemplateInfo) (b : BindingData) : Prop :=
  ∀ sig, b.signature = some sig →
    sig.dynamicFn = (inDynamicFns tinfo sig.methodName || sig.static) ∧
    sig.static = sig.args.all (fun a => a.literal) ∧
    (sig.dynamicFn = true → sig.methodName ∈ b.dependencies)

def goodPart (tinfo : TemplateInfo) : Part → Prop
  | .literal _ => True
  | .binding b => depsCover b ∧ sigFinal tinfo b

/-- State-indexed component of the machine invariant. -/
def sigStateInv (tinfo : TemplateInfo) (st : PState) : Prop :=
  match st.state with
  | .INITIAL => True
  | .FIRSTOPENINGBINDING | .FIRSTCHARACTERBINDING | .BINDING | .FIRSTCOLON
  | .COLONNOTIFYEVENT | .COLONNOTIFYEVENTFIRSTCLOSINGBINDING
  | .FIRSTCLOSINGBINDING | .STRING => st.b.signature = none
  | .METHOD | .STRINGARG | .NUMBERARG | .VARIABLEARG => midSig st.b
  | .METHODCLOSED | .METHODCLOSEDBINDING => sigFinal tinfo st.b

/-- Machine invariant of one `parse` run. -/
def stInv (tinfo : TemplateInfo) (st : PState) : Prop :=
  (∀ p ∈ st.parts, goodPart tinfo p) ∧ depsCover st.b ∧ sigStateInv tinfo st

theorem mem_append_self {α : Type} (l : List α) (x : α) : x ∈ l ++ [x] :=
  List.mem_append.mpr (Or.inr (List.mem_singleton.mpr rfl))

theorem mem_append_of_mem {α : Type} {l : List α} {x : α} (l2 : List α)
    (h : x ∈ l) : x ∈ l ++ l2 :=
  List.mem_append.mpr (Or.inl h)

/-- Restoring the wildcard suffix recovers the original name. -/
theorem sliceLastTwo_restore (s : String) (h : sliceLastTwo s = ".*") :
    dropLastTwo s ++ ".*" = s := by
  obtain ⟨l⟩ := s
  have hd : l.drop (l.length - 2) = ['.', '*'] := congrArg String.data h
  show String.mk (l.take (l.length - 2) ++ ['.', '*']) = String.mk l
  rw [← hd, List.take_append_drop]

theorem depName_ref (name : String) :
    depName { name := (if isPath name && sliceLastTwo name = ".*" then
                dropLastTwo name else name),
              structured := isPath name,
              wildcard := isPath name && sliceLastTwo name = ".*" } = name := by
  unfold depName
  by_cases h : (isPath name && decide (sliceLastTwo name = ".*")) = true
  · have h2 : sliceLastTwo name = ".*" := by
      have := (Bool.and_eq_true _ _).mp h
      exact of_decide_eq_true this.2
    simp only [h, if_pos]
    simpa using sliceLastTwo_restore name h2
  · have hb : (isPath name && decide (sliceLastTwo name = ".*")) = false :=
      Bool.eq_false_iff.mpr h
    simp [hb]

theorem pushLiteral_good (tinfo : TemplateInfo) (text : List Char) (i : Nat)
    (parts : List Part) (sc : Nat) (h : ∀ p ∈ parts, goodPart tinfo p) :
    ∀ p ∈ pushLiteral text i parts sc, goodPart tinfo p := by
  intro p hp
  unfold pushLiteral at hp
  dsimp only at hp
  split at hp
  · exact h p hp
  · rcases List.mem_append.mp hp with h1 | h1
    · exact h p h1
    · rw [List.mem_singleton.mp h1]
      trivial

theorem storeMethod_final (b : BindingData) (tinfo : TemplateInfo)
    (h : midSig b) : sigFinal tinfo (storeMethod b tinfo) := by
  unfold storeMethod
  cases hb : b.signature with
  | none =>
      intro sig' hsig'
      rw [hb] at hsig'
      cases hsig'
  | some sig =>
      dsimp only
      have hmid := h sig hb
      by_cases hcond : (inDynamicFns tinfo sig.methodName || sig.static) = true
      · rw [if_pos hcond]
        intro sig' hsig'
        have hs : some { sig with dynamicFn := true } = some sig' := hsig'
        have hs2 : sig' = { sig with dynamicFn := true } := (Option.some.inj hs).symm
        subst hs2
        refine ⟨hcond.symm, hmid.2, fun _ => ?_⟩
        exact mem_append_self b.dependencies sig.methodName
      · rw [if_neg hcond]
        intro sig' hsig'
        rw [hb] at hsig'
        have hs2 : sig' = sig := (Option.some.inj hsig').symm
        subst hs2
        refine ⟨?_, hmid.2, ?_⟩
        · rw [hmid.1, Bool.eq_false_iff.mpr hcond]
        · intro hcontra
          rw [hmid.1] at hcontra
          cases hcontra

theorem storeMethod_preserves_final (b : BindingData) (tinfo : TemplateInfo)
    (h : sigFinal tinfo b) : sigFinal tinfo (storeMethod b tinfo) := by
  unfold storeMethod
  cases hb : b.signature with
  | none =>
      intro sig' hsig'
      rw [hb] at hsig'
      cases hsig'
  | some sig =>
      dsimp only
      have hfin := h sig hb
      by_cases hcond : (inDynamicFns tinfo sig.methodName || sig.static) = true
      · rw [if_pos hcond]
        intro sig' hsig'
        have hs : some { sig with dynamicFn := true } = some sig' := hsig'
        have hs2 : sig' = { sig with dynamicFn := true } := (Option.some.inj hs).symm
        subst hs2
        refine ⟨hcond.symm, hfin.2.1, fun _ => ?_⟩
        exact mem_append_self b.dependencies sig.methodName
      · rw [if_neg hcond]
        intro sig' hsig'
        rw [hb] at hsig'
        have hs2 : sig' = sig := (Option.some.inj hsig').symm
        subst hs2
        exact hfin

theorem storeMethod_covers (b : BindingData) (tinfo : TemplateInfo)
    (h : depsCover b) : depsCover (storeMethod b tinfo) := by
  unfold storeMethod
  cases hb : b.signature with
  | none => exact h
  | some sig =>
      dsimp only
      by_cases hcond : (inDynamicFns tinfo sig.methodName || sig.static) = true
      · rw [if_pos hcond]
        constructor
        · intro s hsrc
          exact mem_append_of_mem _ (h.1 s hsrc)
        · intro sig' hsig' a ha hlit
          have hs : some { sig with dynamicFn := true } = some sig' := hsig'
          have hs2 : sig' = { sig with dynamicFn := true } := (Option.some.inj hs).symm
          subst hs2
          exact mem_append_of_mem _ (h.2 sig hb a ha hlit)
      · rw [if_neg hcond]
        exact h

theorem midSig_addLit (b : BindingData) (sig : Sig) (a : PArg)
    (hb : b.signature = some sig) (ha : a.literal = true) (h : midSig b) :
    midSig { b with signature := some { sig with args := sig.args ++ [a] } } := by
  intro sig' hsig'
  have hs : some { sig with args := sig.args ++ [a] } = some sig' := hsig'
  have hs2 : sig' = { sig with args := sig.args ++ [a] } := (Option.some.inj hs).symm
  subst hs2
  have hmid := h sig hb
  refine ⟨hmid.1, ?_⟩
  simp [List.all_append, ha, hmid.2]

theorem depsCover_addLit (b : BindingData) (sig : Sig) (a : PArg)
    (hb : b.signature = some sig) (ha : a.literal = true) (h : depsCover b) :
    depsCover { b with signature := some { sig with args := sig.args ++ [a] } } := by
  constructor
  · intro s hsrc
    exact h.1 s hsrc
  · intro sig' hsig' a2 ha2 hlit
    have hs : some { sig with args := sig.args ++ [a] } = some sig' := hsig'
    have hs2 : sig' = { sig with args := sig.args ++ [a] } := (Option.some.inj hs).symm
    subst hs2
    rcases List.mem_append.mp ha2 with h2 | h2
    · exact h.2 sig hb a2 h2 hlit
    · rw [List.mem_singleton.mp h2] at hlit
      rw [ha] at hlit
      cases hlit

theorem storeMethodVariable_mid (b : BindingData) (text : List Char) (i : Nat)
    (h : midSig b) : midSig (storeMethodVariable b text i) := by
  unfold storeMethodVariable
  dsimp only
  split
  · exact h
  · cases hb : b.signature with
    | none => exact h
    | some sig =>
        dsimp only
        split
        · exact midSig_addLit b sig _ hb rfl h
        · intro sig' hsig'
          have hs : some { sig with
              args := sig.args ++
                [{ name := (if isPath (jsTrim (jsSubstring text b.startChar i)) &&
                      sliceLastTwo (jsTrim (jsSubstring text b.startChar i)) = ".*" then
                        dropLastTwo (jsTrim (jsSubstring text b.startChar i))
                      else jsTrim (jsSubstring text b.startChar i)),
                   structured := isPath (jsTrim (jsSubstring text b.startChar i)),
                   wildcard := isPath (jsTrim (jsSubstring text b.startChar i)) &&
                      sliceLastTwo (jsTrim (jsSubstring text b.startChar i)) = ".*" }],
              static := false } = some sig' := hsig'
          have hs2 := (Option.some.inj hs).symm
          subst hs2
          have hmid := h sig hb
          refine ⟨hmid.1, ?_⟩
          simp [List.all_append]

theorem storeMethodVariable_covers (b : BindingData) (text : List Char) (i : Nat)
    (h : depsCover b) : depsCover (storeMethodVariable b text i) := by
  unfold storeMethodVariable
  dsimp only
  split
  · exact h
  · cases hb : b.signature with
    | none => exact h
    | some sig =>
        dsimp only
        split
        · exact depsCover_addLit b sig _ hb rfl h
        · constructor
          · intro s hsrc
            exact mem_append_of_mem _ (h.1 s hsrc)
          · intro sig' hsig' a2 ha2 hlit
            have hs2 := (Option.some.inj hsig').symm
            subst hs2
            rcases List.mem_append.mp ha2 with h2 | h2
            · exact mem_append_of_mem _ (h.2 sig hb a2 h2 hlit)
            · rw [List.mem_singleton.mp h2]
              rw [depName_ref (jsTrim (jsSubstring text b.startChar i))]
              exact mem_append_self _ _

theorem storeMethodNumber_mid (b : BindingData) (text : List Char) (i : Nat)
    (h : midSig b) : midSig (storeMethodNumber b text i) := by
  unfold storeMethodNumber
  cases hb : b.signature with
  | none => exact h
  | some sig =>
      dsimp only
      exact midSig_addLit b sig _ hb rfl h

theorem storeMethodNumber_covers (b : BindingData) (text : List Char) (i : Nat)
    (h : depsCover b) : depsCover (storeMethodNumber b text i) := by
  unfold storeMethodNumber
  cases hb : b.signature with
  | none => exact h
  | some sig =>
      dsimp only
      exact depsCover_addLit b sig _ hb rfl h

theorem sigFinal_of_none (tinfo : TemplateInfo) (b : BindingData)
    (h : b.signature = none) : sigFinal tinfo b := by
  intro sig hsig
  rw [h] at hsig
  exact Option.noConfusion hsig

theorem depsCover_fresh (b : BindingData) (h1 : b.source = none)
    (h2 : b.signature = none) : depsCover b := by
  constructor
  · intro s hs
    rw [h1] at hs
    exact Option.noConfusion hs
  · intro sig hsig
    rw [h2] at hsig
    exact Option.noConfusion hsig

theorem storeVariableBinding_inv (tinfo : TemplateInfo) (parts : List Part)
    (b : BindingData) (prop : String) (i : Nat)
    (hparts : ∀ p ∈ parts, goodPart tinfo p)
    (hsignone : b.signature = none) :
    (∀ p ∈ (storeVariableBinding parts b prop i).1, goodPart tinfo p) ∧
    depsCover (storeVariableBinding parts b prop i).2 := by
  have hb2 : depsCover { b with source := some prop, dependencies := b.dependencies ++ [prop], startChar := i + 1 } := by
    constructor
    · intro s hs
      have hs2 : some prop = some s := hs
      rw [← Option.some.inj hs2]
      exact mem_append_self _ _
    · intro sig hsig
      have hc : b.signature = some sig := hsig
      rw [hsignone] at hc
      exact Option.noConfusion hc
  refine ⟨?_, hb2⟩
  intro p hp
  have hp2 : p ∈ parts ++ [Part.binding { b with source := some prop, dependencies := b.dependencies ++ [prop], startChar := i + 1 }] := hp
  rcases List.mem_append.mp hp2 with h1 | h1
  · exact hparts p h1
  · rw [List.mem_singleton.mp h1]
    refine ⟨hb2, ?_⟩
    intro sig hsig
    have hc : b.signature = some sig := hsig
    rw [hsignone] at hc
    exact Option.noConfusion hc

theorem depsCover_setStartChar (b : BindingData) (x : Nat) (h : depsCover b) :
    depsCover { b with startChar := x } := by
  constructor
  · intro s hs
    exact h.1 s hs
  · intro sig hsig a ha hl
    exact h.2 sig hsig a ha hl

theorem sigFinal_setStartChar (tinfo : TemplateInfo) (b : BindingData) (x : Nat)
    (h : sigFinal tinfo b) : sigFinal tinfo { b with startChar := x } := by
  intro sig hsig
  exact h sig hsig

set_option maxHeartbeats 1600000 in
/-- One scanner transition preserves the machine invariant. -/
theorem step_inv (text : List Char) (tinfo : TemplateInfo) (i : Nat)
    (st : PState) (c : Char) (h : stInv tinfo st) :
    stInv tinfo (step text tinfo i st c) := by
  obtain ⟨parts, b, esc, qu, state, warn⟩ := st
  obtain ⟨hparts, hgood, hsig⟩ := h
  cases state with
  | INITIAL =>
      unfold step
      dsimp only
      split
      · exact ⟨hparts, depsCover_fresh _ rfl rfl, rfl⟩
      · exact ⟨hparts, hgood, trivial⟩
  | FIRSTOPENINGBINDING =>
      unfold step
      dsimp only
      split
      · exact ⟨pushLiteral_good tinfo text (i - 1) parts _ hparts, hgood, hsig⟩
      · exact ⟨hparts, depsCover_fresh _ rfl rfl, trivial⟩
  | FIRSTCHARACTERBINDING =>
      unfold step
      dsimp only
      split
      · split
        · exact ⟨hparts, hgood, hsig⟩
        · exact ⟨hparts, hgood, hsig⟩
      · exact ⟨hparts, hgood, hsig⟩
  | BINDING =>
      unfold step
      dsimp only
      split
      · exact ⟨hparts, hgood, hsig⟩
      · split
        · exact ⟨hparts, hgood, hsig⟩
        · split
          · -- '(' : a fresh signature is created
            refine ⟨hparts, ?_, ?_⟩
            · constructor
              · intro s hs
                exact hgood.1 s hs
              · intro sig hsig2 a ha _
                have hs : some { methodName := jsTrim (jsSubstring text b.startChar i) } = some sig := hsig2
                rw [← Option.some.inj hs] at ha
                exact absurd ha (List.not_mem_nil a)
            · intro sig hsig2
              have hs : some { methodName := jsTrim (jsSubstring text b.startChar i) } = some sig := hsig2
              rw [← Option.some.inj hs]
              exact ⟨rfl, rfl⟩
          · split
            · exact ⟨hparts, hgood, hsig⟩
            · exact ⟨hparts, hgood, hsig⟩
  | FIRSTCOLON =>
      unfold step
      dsimp only
      split
      · exact ⟨hparts, hgood, hsig⟩
      · exact ⟨hparts, hgood, hsig⟩
  | COLONNOTIFYEVENT =>
      unfold step
      dsimp only
      split
      · exact ⟨hparts, hgood, hsig⟩
      · exact ⟨hparts, hgood, hsig⟩
  | COLONNOTIFYEVENTFIRSTCLOSINGBINDING =>
      unfold step
      dsimp only
      split
      · have hinv := storeVariableBinding_inv tinfo parts
          { b with event := some (jsTrim (jsSubstring text b.startCharAfterColon (i - 1))) }
          (jsTrim (jsSubstring text
            ({ b with event := some (jsTrim (jsSubstring text b.startCharAfterColon (i - 1))) }).startChar
            (({ b with event := some (jsTrim (jsSubstring text b.startCharAfterColon (i - 1))) }).startCharAfterColon - 2)))
          i hparts hsig
        exact ⟨hinv.1, hinv.2, trivial⟩
      · exact ⟨hparts, hgood, hsig⟩
  | FIRSTCLOSINGBINDING =>
      unfold step
      dsimp only
      split
      · have hinv := storeVariableBinding_inv tinfo parts b
          (jsTrim (jsSubstring text b.startChar (i - 1))) i hparts hsig
        exact ⟨hinv.1, hinv.2, trivial⟩
      · exact ⟨hparts, hgood, hsig⟩
  | STRING =>
      unfold step
      dsimp only
      split
      · exact ⟨hparts, hgood, hsig⟩
      · split
        · exact ⟨hparts, hgood, hsig⟩
        · exact ⟨hparts, hgood, hsig⟩
  | METHOD =>
      unfold step
      dsimp only
      split
      · -- ')' : finalize pending arg, double storeMethod
        have h1 := storeMethodVariable_covers b text i hgood
        have m1 := storeMethodVariable_mid b text i hsig
        have h2 := storeMethod_covers _ tinfo h1
        have f2 := storeMethod_final _ tinfo m1
        have h3 := depsCover_setStartChar _ (i + 1) h2
        have f3 := sigFinal_setStartChar tinfo _ (i + 1) f2
        exact ⟨hparts, storeMethod_covers _ tinfo h3,
               storeMethod_preserves_final _ tinfo f3⟩
      · split
        · -- ','
          exact ⟨hparts, storeMethodVariable_covers b text i hgood,
                 storeMethodVariable_mid b text i hsig⟩
        · split
          · exact ⟨hparts, hgood, hsig⟩
          · split
            · exact ⟨hparts, hgood, hsig⟩
            · split
              · exact ⟨hparts, hgood, hsig⟩
              · exact ⟨hparts, hgood, hsig⟩
  | STRINGARG =>
      unfold step
      dsimp only
      split
      · exact ⟨hparts, hgood, hsig⟩
      · split
        · -- closing quote: push the string-literal arg
          cases hb : b.signature with
          | none =>
              refine ⟨hparts, ?_, ?_⟩
              · exact hgood
              · exact hsig
          | some sig =>
              refine ⟨hparts, ?_, ?_⟩
              · exact depsCover_addLit b sig _ hb rfl hgood
              · exact midSig_addLit b sig _ hb rfl hsig
        · exact ⟨hparts, hgood, hsig⟩
  | NUMBERARG =>
      unfold step
      dsimp only
      split
      · exact ⟨hparts, storeMethodNumber_covers b text i hgood,
               storeMethodNumber_mid b text i hsig⟩
      · split
        · exact ⟨hparts, storeMethod_covers _ tinfo (storeMethodNumber_covers b text i hgood),
                 storeMethod_final _ tinfo (storeMethodNumber_mid b text i hsig)⟩
        · split
          · exact ⟨hparts, hgood, hsig⟩
          · exact ⟨hparts, hgood, hsig⟩
  | VARIABLEARG =>
      unfold step
      dsimp only
      split
      · exact ⟨hparts, storeMethodVariable_covers b text i hgood,
               storeMethodVariable_mid b text i hsig⟩
      · split
        · exact ⟨hparts, storeMethod_covers _ tinfo (storeMethodVariable_covers b text i hgood),
                 storeMethod_final _ tinfo (storeMethodVariable_mid b text i hsig)⟩
        · exact ⟨hparts, hgood, hsig⟩
  | METHODCLOSED =>
      unfold step
      dsimp only
      split
      · exact ⟨hparts, hgood, hsig⟩
      · split
        · exact ⟨hparts, hgood, hsig⟩
        · exact ⟨hparts, hgood, hsig⟩
  | METHODCLOSEDBINDING =>
      unfold step
      dsimp only
      split
      · -- emit the method binding
        refine ⟨?_, hgood, trivial⟩
        intro p hp
        have hp2 : p ∈ parts ++ [Part.binding { b with startChar := i + 1 }] := hp
        rcases List.mem_append.mp hp2 with h1 | h1
        · exact hparts p h1
        · rw [List.mem_singleton.mp h1]
          exact ⟨hgood, hsig⟩
      · split
        · exact ⟨hparts, hgood, hsig⟩
        · exact ⟨hparts, hgood, hsig⟩

theorem runAux_inv (text : List Char) (tinfo : TemplateInfo) :
    ∀ (cs : List Char) (i : Nat) (st : PState), stInv tinfo st →
      stInv tinfo (runAux text tinfo i cs st) := by
  intro cs
  induction cs with
  | nil => intro i st h; exact h
  | cons c cs ih =>
      intro i st h
      exact ih (i + 1) (step text tinfo i st c) (step_inv text tinfo i st c h)

theorem stInv_init (tinfo : TemplateInfo) : stInv tinfo ({} : PState) :=
  ⟨fun p hp => absurd hp (List.not_mem_nil p), depsCover_fresh _ rfl rfl, trivial⟩

/-- Every part of a `parse` result satisfies the output invariant. -/
theorem parse_parts_good (text : String) (tinfo : TemplateInfo) :
    ∀ p ∈ parse text tinfo, goodPart tinfo p := by
  have hinv := runAux_inv text.data tinfo text.data 0 ({} : PState) (stInv_init tinfo)
  unfold parse parseWithWarnings
  dsimp only
  cases hlast : (runAux text.data tinfo 0 text.data ({} : PState)).parts.getLast? with
  | none => exact hinv.1
  | some p0 =>
      exact pushLiteral_good tinfo text.data text.data.length _ _ hinv.1

/-- C9 (amended): for every input and dynamic-function set, every
binding part emitted by `parse` has a dependency list that contains at
least every property/path name the binding reads — the source path of a
simple binding, and each non-literal argument (with its wildcard suffix
restored) of a method binding.  The list is not an ordered set: it may
contain duplicates (see the counterexample). -/
theorem parse_dependencies_cover (text : String) (tinfo : TemplateInfo)
    (p : Part) (hp : p ∈ parse text tinfo) (b : BindingData)
    (hb : p = Part.binding b) :
    (∀ s, b.source = some s → s ∈ b.dependencies) ∧
    (∀ sig, b.signature = some sig → ∀ a ∈ sig.args, a.literal = false →
      a.name ++ (if a.wildcard then ".*" else "") ∈ b.dependencies) := by
  have hg := parse_parts_good text tinfo p hp
  rw [hb] at hg
  exact ⟨hg.1.1, fun sig hsig a ha hl => hg.1.2 sig hsig a ha hl⟩

/-- Instantiation of the dependency-coverage theorem on
`parse "Hello {{name}}!"`: the emitted binding reads `"name"` and its
dependency list contains it. -/
theorem parse_dependencies_cover_witness :
    (∀ s, (some "name" : Option String) = some s → s ∈ ["name"]) ∧
    (∀ sig, (none : Option Sig) = some sig → ∀ a ∈ sig.args, a.literal = false →
      a.name ++ (if a.wildcard then ".*" else "") ∈ ["name"]) :=
  parse_dependencies_cover "Hello \x7b\x7bname\x7d\x7d!" {}
    (Part.binding { mode := '{', dependencies := ["name"], startChar := 14, source := some "name" })
    (by decide)
    { mode := '{', dependencies := ["name"], startChar := 14, source := some "name" }
    rfl

/-- C4 (amended): for every binding part with a method signature
emitted by `parse`, `dynamicFn` is set if and only if the method name
is in the caller-supplied dynamic-function set or every collected
argument is a literal; and whenever `dynamicFn` is set, the method name
is in the binding's dependency list.  (A method whose arguments are all
literals is marked dynamic even when its name is not in the set —
`storeMethod` fires on `dynamicFns[name] || signature.static`.) -/
theorem parse_method_dynamicFn_iff (text : String) (tinfo : TemplateInfo)
    (p : Part) (hp : p ∈ parse text tinfo) (b : BindingData)
    (hb : p = Part.binding b) (sig : Sig) (hsig : b.signature = some sig) :
    sig.dynamicFn =
      (inDynamicFns tinfo sig.methodName || sig.args.all (fun a => a.literal)) ∧
    (sig.dynamicFn = true → sig.methodName ∈ b.dependencies) := by
  have hg := parse_parts_good text tinfo p hp
  rw [hb] at hg
  have hf := hg.2 sig hsig
  refine ⟨?_, hf.2.2⟩
  rw [hf.1, hf.2.1]

/-- Instantiation of the dynamic-flag theorem on `parse "{{foo(1)}}"`
with an empty dynamic-function set: the all-literal call is marked
dynamic and `"foo"` is in the dependency list. -/
theorem parse_method_dynamicFn_iff_witness :
    staticCallSig.dynamicFn =
      (inDynamicFns ({} : TemplateInfo) staticCallSig.methodName ||
        staticCallSig.args.all (fun a => a.literal)) ∧
    (staticCallSig.dynamicFn = true →
      staticCallSig.methodName ∈ staticCallOut.dependencies) :=
  parse_method_dynamicFn_iff "\x7b\x7bfoo(1)\x7d\x7d" {} (Part.binding staticCallOut)
    (by decide) staticCallOut rfl staticCallSig rfl

/-! ### C6: characterization of the key-unquoting fix-up. -/

/-- The scanner at its canonical fuel. -/
def rkl (s : List Char) : List Char := rkAux s.length s

theorem replaceWordKeys_eq_rkl (s : String) :
    replaceWordKeys s = ⟨rkl s.data⟩ := rfl

theorem wordRun_concat (cs : List Char) :
    cs = (wordRun cs).1 ++ (wordRun cs).2 := by
  induction cs with
  | nil => rfl
  | cons c cs ih =>
      unfold wordRun
      by_cases hc : isWordChar c = true
      · rw [if_pos hc]
        show c :: cs = c :: ((wordRun cs).1 ++ (wordRun cs).2)
        rw [← ih]
      · rw [if_neg hc]
        rfl

theorem wordRun_word_prefix (w r : List Char)
    (hw : ∀ c ∈ w, isWordChar c = true)
    (hr : ∀ c, r.head? = some c → isWordChar c = false) :
    wordRun (w ++ r) = (w, r) := by
  induction w with
  | nil =>
      cases r with
      | nil => rfl
      | cons c r' =>
          have hc := hr c rfl
          show wordRun (c :: r') = ([], c :: r')
          unfold wordRun
          rw [if_neg (by simp [hc])]
  | cons c w' ih =>
      have hc := hw c (List.mem_cons_self _ _)
      have ih2 := ih (fun d hd => hw d (List.mem_cons_of_mem _ hd))
      show wordRun (c :: (w' ++ r)) = (c :: w', r)
      unfold wordRun
      rw [if_pos hc, ih2]

/-- The scanner ignores fuel beyond the input length. -/
theorem rkAux_fuel (f : Nat) : ∀ s : List Char, s.length ≤ f →
    rkAux f s = rkAux s.length s := by
  induction f using Nat.strong_induction_on with
  | _ f ih =>
      intro s hs
      match f, s with
      | 0, [] => rfl
      | 0, c :: cs => simp at hs
      | f + 1, [] => rfl
      | f + 1, c :: cs =>
          have hlen : cs.length ≤ f := by simpa using hs
          show rkAux (f + 1) (c :: cs) = rkAux (cs.length + 1) (c :: cs)
          by_cases hc : c = '"'
          · by_cases hcond : (wordRun cs).1 ≠ [] ∧ (wordRun cs).2.take 2 = ['"', ':']
            · have hdrop : ((wordRun cs).2.drop 2).length ≤ cs.length := by
                calc ((wordRun cs).2.drop 2).length ≤ (wordRun cs).2.length :=
                      by simp
                  _ ≤ cs.length := by
                      conv_rhs => rw [wordRun_concat cs]
                      simp
              simp only [rkAux, hc, eq_self_iff_true, if_true, if_pos hcond]
              rw [ih f (Nat.lt_succ_self f) _ (le_trans hdrop hlen),
                  ih cs.length (Nat.lt_succ_of_le hlen) _ hdrop]
            · simp only [rkAux, hc, eq_self_iff_true, if_true, if_neg hcond]
              rw [ih f (Nat.lt_succ_self f) cs hlen,
                  ih cs.length (Nat.lt_succ_of_le hlen) cs (le_refl _)]
          · simp only [rkAux, if_neg hc]
            rw [ih f (Nat.lt_succ_self f) cs hlen,
                ih cs.length (Nat.lt_succ_of_le hlen) cs (le_refl _)]

/-- Unfolding `rkl` on a non-quote character. -/
theorem rkl_cons_nonquote (c : Char) (cs : List Char) (h : c ≠ '"') :
    rkl (c :: cs) = c :: rkl cs := by
  show rkAux (cs.length + 1) (c :: cs) = c :: rkAux cs.length cs
  simp only [rkAux, if_neg h]

/-- Unfolding `rkl` on a matched key. -/
theorem rkl_quote_match (w rest : List Char) (hw : w ≠ [])
    (hword : ∀ c ∈ w, isWordChar c = true) :
    rkl ('"' :: (w ++ '"' :: ':' :: rest)) = w ++ ':' :: rkl rest := by
  have hrun : wordRun (w ++ '"' :: ':' :: rest) = (w, '"' :: ':' :: rest) :=
    wordRun_word_prefix w _ hword (by intro c hc; cases hc; rfl)
  have hcond2 : w ≠ [] ∧ List.take 2 ('"' :: ':' :: rest) = ['"', ':'] := ⟨hw, rfl⟩
  show rkAux ((w ++ '"' :: ':' :: rest).length + 1) ('"' :: (w ++ '"' :: ':' :: rest)) = _
  simp only [rkAux, hrun, eq_self_iff_true, if_true, if_pos hcond2]
  show w ++ ':' :: rkAux (w ++ '"' :: ':' :: rest).length rest = w ++ ':' :: rkl rest
  rw [rkAux_fuel _ rest (by simp [List.length_append]; omega)]
  rfl

/-- Unfolding `rkl` on a failed key attempt. -/
theorem rkl_quote_nomatch (cs : List Char)
    (h : ¬((wordRun cs).1 ≠ [] ∧ (wordRun cs).2.take 2 = ['"', ':'])) :
    rkl ('"' :: cs) = '"' :: rkl cs := by
  show rkAux (cs.length + 1) ('"' :: cs) = '"' :: rkAux cs.length cs
  simp only [rkAux, eq_self_iff_true, if_true, if_neg h]

/-- Quote-free text passes through the scanner unchanged. -/
theorem rkl_append_noquote (s : List Char) :
    ∀ t : List Char, (∀ c ∈ s, c ≠ '"') → rkl (s ++ t) = s ++ rkl t := by
  induction s with
  | nil => intro t _; rfl
  | cons c s' ih =>
      intro t hs
      have hc : c ≠ '"' := hs c (List.mem_cons_self _ _)
      show rkl (c :: (s' ++ t)) = c :: (s' ++ rkl t)
      rw [rkl_cons_nonquote c _ hc, ih t (fun d hd => hs d (List.mem_cons_of_mem _ hd))]

theorem exists_span_nonword (k : List Char) (hk : ¬ (∀ c ∈ k, isWordChar c = true)) :
    ∃ w0 c0 k1, k = w0 ++ c0 :: k1 ∧ (∀ c ∈ w0, isWordChar c = true) ∧
      isWordChar c0 = false := by
  induction k with
  | nil => exact absurd (fun c hc => absurd hc (List.not_mem_nil c)) hk
  | cons c k' ih =>
      by_cases hc : isWordChar c = true
      · have hk' : ¬ (∀ d ∈ k', isWordChar d = true) := by
          intro hall
          exact hk (fun d hd => by
            rcases List.mem_cons.mp hd with h1 | h1
            · rw [h1]; exact hc
            · exact hall d h1)
        rcases ih hk' with ⟨w0, c0, k1, hsplit, hword, hnon⟩
        exact ⟨c :: w0, c0, k1, by rw [hsplit]; rfl, by
          intro d hd
          rcases List.mem_cons.mp hd with h1 | h1
          · rw [h1]; exact hc
          · exact hword d h1, hnon⟩
      · exact ⟨[], c, k', rfl, fun d hd => absurd hd (List.not_mem_nil d),
          Bool.eq_false_iff.mpr hc⟩

/-- A quoted, quote-free segment whose closing quote is not followed by
a key match passes through the scanner unchanged. -/
theorem rkl_quoted_noclosekey (s : List Char) (c : Char) (t : List Char)
    (hs : ∀ ch ∈ s, ch ≠ '"')
    (hnm : ¬(s ≠ [] ∧ (∀ ch ∈ s, isWordChar ch = true) ∧ c = ':'))
    (hcw : isWordChar c = false) (hcq : c ≠ '"') :
    rkl ('"' :: (s ++ '"' :: c :: t)) = '"' :: (s ++ '"' :: c :: rkl t) := by
  have hnomatch : ¬((wordRun (s ++ '"' :: c :: t)).1 ≠ [] ∧
      (wordRun (s ++ '"' :: c :: t)).2.take 2 = ['"', ':']) := by
    by_cases hall : ∀ ch ∈ s, isWordChar ch = true
    · by_cases hse : s = []
      · subst hse
        have hrun : wordRun (([] : List Char) ++ '"' :: c :: t) = ([], '"' :: c :: t) := by
          show wordRun ('"' :: c :: t) = ([], '"' :: c :: t)
          unfold wordRun
          rw [if_neg (by decide)]
        rw [hrun]
        rintro ⟨hne, _⟩
        exact hne rfl
      · have hrun : wordRun (s ++ '"' :: c :: t) = (s, '"' :: c :: t) :=
          wordRun_word_prefix s _ hall
            (by intro ch hch; rw [← Option.some.inj hch]; decide)
        rw [hrun]
        rintro ⟨_, htake⟩
        have hc2 : c = ':' := by simpa using htake
        exact hnm ⟨hse, hall, hc2⟩
    · rcases exists_span_nonword s hall with ⟨w0, c0, k1, hsplit, hword0, hnon0⟩
      have hc0q : c0 ≠ '"' := hs c0 (by
        rw [hsplit]
        exact List.mem_append.mpr (Or.inr (List.mem_cons_self _ _)))
      have hrun : wordRun (s ++ '"' :: c :: t) = (w0, c0 :: (k1 ++ '"' :: c :: t)) := by
        rw [hsplit, List.append_assoc, List.cons_append]
        exact wordRun_word_prefix w0 _ hword0
          (by intro ch hch; rw [← Option.some.inj hch]; exact hnon0)
      rw [hrun]
      rintro ⟨_, htake⟩
      have hc0 : c0 = '"' := by
        simp at htake
        exact htake.1
      exact hc0q hc0
  rw [rkl_quote_nomatch _ hnomatch,
      rkl_append_noquote s ('"' :: c :: t) hs]
  have hnm2 : ¬((wordRun (c :: t)).1 ≠ [] ∧ (wordRun (c :: t)).2.take 2 = ['"', ':']) := by
    have hrun2 : wordRun (c :: t) = ([], c :: t) := by
      unfold wordRun
      rw [if_neg (by simp [hcw])]
    rw [hrun2]
    rintro ⟨hne, _⟩
    exact hne rfl
  rw [rkl_quote_nomatch (c :: t) hnm2, rkl_cons_nonquote c t hcq]

theorem digitChar10_ne_quote (d : Nat) : digitChar10 d ≠ '"' := by
  unfold digitChar10
  split_ifs <;> decide

theorem natDigitsAux_ne_quote (f : Nat) : ∀ (n : Nat), ∀ c ∈ natDigitsAux f n, c ≠ '"' := by
  induction f with
  | zero => intro n c hc; exact absurd hc (List.not_mem_nil c)
  | succ f ih =>
      intro n c hc
      unfold natDigitsAux at hc
      split at hc
      · rw [List.mem_singleton.mp hc]
        exact digitChar10_ne_quote n
      · rcases List.mem_append.mp hc with h1 | h1
        · exact ih (n / 10) c h1
        · rw [List.mem_singleton.mp h1]
          exact digitChar10_ne_quote _

theorem renderInt_ne_quote (n : Int) : ∀ c ∈ renderInt n, c ≠ '"' := by
  intro c hc
  unfold renderInt natDigits at hc
  rcases List.mem_append.mp hc with h1 | h1
  · split at h1
    · rw [List.mem_singleton.mp h1]
      decide
    · exact absurd h1 (List.not_mem_nil c)
  · exact natDigitsAux_ne_quote _ _ c h1

/-- Validity of a leaf value for the fix-up theorem: string contents
carry only characters that `JSON.stringify` emits verbatim. -/
def valOk : FlatVal → Prop
  | .str s => ∀ c ∈ s.data, c ≠ '"' ∧ c ≠ '\\' ∧ 32 ≤ c.toNat
  | .num _ => True

/-- A rendered value followed by `','` or `'}'` passes through the
scanner unchanged. -/
theorem rkl_value (v : FlatVal) (c : Char) (t : List Char) (hv : valOk v)
    (hc : c = ',' ∨ c = '}') :
    rkl (renderVal v ++ c :: t) = renderVal v ++ c :: rkl t := by
  have hcq : c ≠ '"' := by rcases hc with rfl | rfl <;> decide
  cases v with
  | num n =>
      show rkl (renderInt n ++ c :: t) = renderInt n ++ c :: rkl t
      rw [rkl_append_noquote (renderInt n) (c :: t) (renderInt_ne_quote n),
          rkl_cons_nonquote c t hcq]
  | str s =>
      have hs : ∀ ch ∈ s.data, ch ≠ '"' := fun ch hch => (hv ch hch).1
      have hshape : renderVal (FlatVal.str s) ++ c :: t
          = '"' :: (s.data ++ '"' :: c :: t) := by
        show ('"' :: s.data ++ ['"']) ++ c :: t = _
        simp [List.append_assoc]
      rw [hshape,
          rkl_quoted_noclosekey s.data c t hs
            (by rintro ⟨_, _, rfl⟩; rcases hc with h | h <;> cases h)
            (by rcases hc with rfl | rfl <;> decide) hcq]
      show ('"' :: (s.data ++ '"' :: c :: rkl t) : List Char)
          = ('"' :: s.data ++ ['"']) ++ c :: rkl t
      simp [List.append_assoc]

theorem string_ne_empty_iff (l : List Char) : (String.mk l ≠ "") ↔ l ≠ [] := by
  constructor
  · intro h hnil
    exact h (by rw [hnil])
  · intro h hcontra
    exact h (congrArg String.data hcontra)

theorem keyWordCond (k : String) :
    ((k ≠ "" && k.data.all isWordChar) = true)
      ↔ (k.data ≠ [] ∧ ∀ ch ∈ k.data, isWordChar ch = true) := by
  obtain ⟨l⟩ := k
  show ((String.mk l ≠ "" && l.all isWordChar) = true)
      ↔ (l ≠ [] ∧ ∀ ch ∈ l, isWordChar ch = true)
  simp only [Bool.and_eq_true, List.all_eq_true, decide_eq_true_eq]
  rw [string_ne_empty_iff]

/-- One serialized entry, followed by `','` or `'}'`, scans to its
stripped form: the key is unquoted exactly when it is a non-empty `\w`
word. -/
theorem rkl_entry (k : String) (v : FlatVal) (c : Char) (t : List Char)
    (hk : ∀ ch ∈ k.data, ch ≠ '"') (hv : valOk v) (hc : c = ',' ∨ c = '}') :
    rkl ('"' :: (k.data ++ '"' :: ':' :: (renderVal v ++ c :: t)))
      = renderEntryStripped k v ++ c :: rkl t := by
  by_cases hmatch : k.data ≠ [] ∧ ∀ ch ∈ k.data, isWordChar ch = true
  · have hcond : (k ≠ "" && k.data.all isWordChar) = true :=
      (keyWordCond k).mpr hmatch
    rw [rkl_quote_match k.data _ hmatch.1 hmatch.2, rkl_value v c t hv hc]
    unfold renderEntryStripped
    rw [if_pos hcond]
    simp [List.append_assoc]
  · have hcond : ¬((k ≠ "" && k.data.all isWordChar) = true) :=
      fun hcontra => hmatch ((keyWordCond k).mp hcontra)
    rw [rkl_quoted_noclosekey k.data ':' (renderVal v ++ c :: t) hk
          (by rintro ⟨h1, h2, _⟩; exact hmatch ⟨h1, h2⟩)
          (by decide) (by decide),
        rkl_value v c t hv hc]
    unfold renderEntryStripped
    rw [if_neg hcond]
    simp [List.append_assoc]

theorem rkl_entries (kvs : List (String × FlatVal)) :
    (∀ kv ∈ kvs, (∀ ch ∈ kv.1.data, ch ≠ '"') ∧ valOk kv.2) →
    ∀ t : List Char, rkl (renderEntries kvs ++ '}' :: t)
      = renderEntriesStripped kvs ++ '}' :: rkl t := by
  induction kvs with
  | nil =>
      intro _ t
      show rkl ('}' :: t) = '}' :: rkl t
      exact rkl_cons_nonquote '}' t (by decide)
  | cons kv rest ih =>
      intro hok t
      obtain ⟨k, v⟩ := kv
      have hkv := hok (k, v) (List.mem_cons_self _ _)
      cases rest with
      | nil =>
          have hshape : renderEntries [(k, v)] ++ '}' :: t
              = '"' :: (k.data ++ '"' :: ':' :: (renderVal v ++ '}' :: t)) := by
            show ('"' :: k.data ++ '"' :: ':' :: renderVal v) ++ '}' :: t = _
            simp [List.append_assoc]
          rw [hshape, rkl_entry k v '}' t hkv.1 hkv.2 (Or.inr rfl)]
          rfl
      | cons kv2 rest2 =>
          have hshape : renderEntries ((k, v) :: kv2 :: rest2) ++ '}' :: t
              = '"' :: (k.data ++ '"' :: ':' ::
                  (renderVal v ++ ',' :: (renderEntries (kv2 :: rest2) ++ '}' :: t))) := by
            show ('"' :: k.data ++ '"' :: ':' :: renderVal v ++
                ',' :: renderEntries (kv2 :: rest2)) ++ '}' :: t = _
            simp [List.append_assoc]
          rw [hshape, rkl_entry k v ',' _ hkv.1 hkv.2 (Or.inl rfl),
              ih (fun kv2' h2 => hok kv2' (List.mem_cons_of_mem _ h2)) t]
          show _ = (renderEntryStripped k v ++
              ',' :: renderEntriesStripped (kv2 :: rest2)) ++ '}' :: rkl t
          simp [List.append_assoc]

/-- C6 (amended): in the serialized output of `stripSerializedMetadata`
an object key is rendered unquoted if and only if it matches `\w+`
(`[A-Za-z0-9_]+`, the capture of the actual fix-up regex) — so keys
containing `$` keep their quotes and keys starting with a digit lose
them — and string values are left untouched.  The hypotheses restrict
keys and string values to characters that `JSON.stringify` emits
verbatim (no quote, no backslash, no control characters), which is the
regime the serializer operates in. -/
theorem stripSerializedMetadata_unquotes_word_keys
    (kvs : List (String × FlatVal))
    (hok : ∀ kv ∈ kvs,
      (∀ c ∈ kv.1.data, c ≠ '"' ∧ c ≠ '\\' ∧ 32 ≤ c.toNat) ∧ valOk kv.2) :
    stripSerializedMetadata kvs
      = ⟨'{' :: (renderEntriesStripped kvs ++ ['}'])⟩ := by
  have hok2 : ∀ kv ∈ kvs, (∀ ch ∈ kv.1.data, ch ≠ '"') ∧ valOk kv.2 :=
    fun kv h => ⟨fun ch hch => ((hok kv h).1 ch hch).1, (hok kv h).2⟩
  show replaceWordKeys ⟨stringifyFlat kvs⟩ = _
  rw [replaceWordKeys_eq_rkl]
  apply congrArg String.mk
  show rkl ('{' :: (renderEntries kvs ++ '}' :: [])) = _
  rw [rkl_cons_nonquote '{' _ (by decide), rkl_entries kvs hok2 []]
  rfl

/-- Instantiation of the key-unquoting theorem: the word key `"abc"`
loses its quotes, the key `"a-b"` keeps them, and the string value
`"x_y"` is untouched. -/
theorem stripSerializedMetadata_unquotes_word_keys_witness :
    stripSerializedMetadata [("abc", FlatVal.num 1), ("a-b", FlatVal.str "x_y")]
      = ⟨'{' :: (renderEntriesStripped
          [("abc", FlatVal.num 1), ("a-b", FlatVal.str "x_y")] ++ ['}'])⟩ := by
  apply stripSerializedMetadata_unquotes_word_keys
  intro kv hkv
  have hcases : kv = ("abc", FlatVal.num 1) ∨ kv = ("a-b", FlatVal.str "x_y") := by
    simpa using hkv
  rcases hcases with rfl | rfl
  · exact ⟨by decide, trivial⟩
  · refine ⟨by decide, ?_⟩
    show ∀ c ∈ ("x_y" : String).data, c ≠ '"' ∧ c ≠ '\\' ∧ 32 ≤ c.toNat
    decide

end LooseIt
